import Mathlib

/-!
# mygit: staging area, commit pipeline and history reader

A shallow embedding of `commands/commands.go` (`Add`, `Commit`, `Log`) and of the
`add` and `commit` cases of `cmd/mygit/main.go`.

Modelling conventions.

* A Go string is its sequence of bytes (`GoString`).  Text that is valid UTF-8 by
  construction (what `encoding/json` decodes, the literals of the program, the output of
  `time.Format` and of the verb `%x`) is a Lean `String`; `raw` gives its bytes.
* `encoding/json` writes a Go string with every byte that `utf8.DecodeRuneInString` rejects
  replaced by U+FFFD: `encodedString s` is the text a later `Decode` reads for `s`.
* The persisted document is the value `json.NewDecoder(file).Decode(&metadata)` leaves in
  `metadata`: a Go `map[string]any`, or the nil map when the file holds the JSON value `null`.
  A missing or unparsable `metadata.json` leaves the empty map, so the empty map stands for
  both.
* A Go map is an association list read with `mapGet` (first binding of the key) and written
  with `mapSet` (overwrite the binding, or add one).
* The operating system and the libraries the code calls are inputs: the hash function
  (`crypto/sha1` rendered by `%x`), the clock, `filepath.Glob`, `os.Stat`, `filepath.Walk`,
  `os.Open` with `io.Copy`, the iteration order of a Go map, and how writing the document
  ends (`os.Create` fails, `Encode` fails after the file was truncated, or all is written).
* Every `fmt.Printf`, `fmt.Println` and `fmt.Fprintf` call contributes one string to the
  standard output or standard error list of the result.
-/

namespace MyGit

/-! ## Go strings -/

/-- A Go string: its bytes. -/
abbrev GoString := List Nat

/-- The UTF-8 encoding of the code point `c`. -/
def encodeRune (c : Nat) : List Nat :=
  if c < 0x80 then [c]
  else if c < 0x800 then [0xC0 + c / 64, 0x80 + c % 64]
  else if c < 0x10000 then [0xE0 + c / 4096, 0x80 + c / 64 % 64, 0x80 + c % 64]
  else [0xF0 + c / 262144, 0x80 + c / 4096 % 64, 0x80 + c / 64 % 64, 0x80 + c % 64]

/-- The bytes of a text. -/
def raw (s : String) : GoString := s.toList.flatMap (fun c => encodeRune c.toNat)

/-- A continuation byte of UTF-8: between `locb` and `hicb`. -/
def isCont (b : Nat) : Bool := 0x80 ≤ b && b ≤ 0xBF

/-- The function `utf8.DecodeRuneInString`: the code point and the width of the first
encoding, `none` for the result `(RuneError, 1)` of an invalid or incomplete encoding. -/
def decodeRune : GoString → Option (Nat × Nat)
  | [] => none
  | b0 :: rest =>
    if b0 < 0x80 then some (b0, 1)
    else if b0 < 0xC2 then none
    else if b0 < 0xE0 then
      match rest with
      | b1 :: _ => if isCont b1 then some (b0 % 32 * 64 + b1 % 64, 2) else none
      | _ => none
    else if b0 < 0xF0 then
      match rest with
      | b1 :: b2 :: _ =>
        if (if b0 = 0xE0 then 0xA0 else 0x80) ≤ b1 && b1 ≤ (if b0 = 0xED then 0x9F else 0xBF)
            && isCont b2 then
          some (b0 % 16 * 4096 + b1 % 64 * 64 + b2 % 64, 3)
        else none
      | _ => none
    else if b0 < 0xF5 then
      match rest with
      | b1 :: b2 :: b3 :: _ =>
        if (if b0 = 0xF0 then 0x90 else 0x80) ≤ b1 && b1 ≤ (if b0 = 0xF4 then 0x8F else 0xBF)
            && isCont b2 && isCont b3 then
          some (b0 % 8 * 262144 + b1 % 64 * 4096 + b2 % 64 * 64 + b3 % 64, 4)
        else none
      | _ => none
    else none

/-- The characters `encoding/json` writes for a Go string, and a later `Decode` reads: the
string is walked with `utf8.DecodeRuneInString`, a valid encoding gives its character and a
rejected byte gives U+FFFD.  `skip` counts the bytes of the current encoding still to pass. -/
def validChars : Nat → GoString → List Char
  | _, [] => []
  | skip + 1, _ :: rest => validChars skip rest
  | 0, b :: rest =>
    match decodeRune (b :: rest) with
    | some (cp, size) => Char.ofNat cp :: validChars (size - 1) rest
    | none => Char.ofNat 0xFFFD :: validChars 0 rest

/-- The text a later `Decode` reads for a Go string that `Encode` wrote. -/
def encodedString (s : GoString) : String := String.mk (validChars 0 s)

/-! ## Data model -/

/-- A decoded JSON value, as `encoding/json` stores it in a Go `any`. -/
inductive JSON where
  | null : JSON
  | bool (b : Bool) : JSON
  | num (lit : String) : JSON
  | str (s : String) : JSON
  | arr (xs : List JSON) : JSON
  | obj (kvs : List (String × JSON)) : JSON

/-- A Go map with string keys that are text. -/
abbrev GoMap (α : Type) := List (String × α)

/-- Map lookup `m[k]` with the `ok` flag: `none` when the key is absent. -/
def mapGet {κ α : Type} [DecidableEq κ] : List (κ × α) → κ → Option α
  | [], _ => none
  | (k', v) :: rest, k => if k' = k then some v else mapGet rest k

/-- Map assignment `m[k] = v`. -/
def mapSet {κ α : Type} [DecidableEq κ] : List (κ × α) → κ → α → List (κ × α)
  | [], k, v => [(k, v)]
  | (k', v') :: rest, k, v => if k' = k then (k, v) :: rest else (k', v') :: mapSet rest k v

/-- The constant `MyGitDir`. -/
def MyGitDir : String := ".mygit"

/-- The constant `os.PathSeparator` on a Unix system, as a string. -/
def pathSeparator : String := "/"

/-- The on-disk state the commands read and write: whether `os.Stat(MyGitDir)` finds the
directory, and what `Decode` makes of `.mygit/metadata.json`: `none` is the nil map that the
JSON value `null` leaves. -/
structure Repo where
  initialized : Bool
  decoded : Option (GoMap JSON)

/-- The map `metadata` as the commands read it: a nil map has no key. -/
def Repo.metadata (r : Repo) : GoMap JSON := r.decoded.getD []

/-- What a command returns and prints, together with the on-disk state it leaves;
`panicked` says that the command did not return but ended in a run-time panic. -/
structure Result where
  err : Option String
  panicked : Bool
  repo : Repo
  stdout : List GoString
  stderr : List GoString

/-- A staging entry in memory: a Go `map[string]string`. -/
abbrev Entry := GoMap GoString

/-- Reading `entry[k]` of a `map[string]string`: the empty string when the key is absent. -/
def field (entry : Entry) (k : String) : GoString := (mapGet entry k).getD []

/-- A Go string as it is encoded into the document. -/
def jsonStr (s : GoString) : JSON := JSON.str (encodedString s)

/-- A `map[string]string` as it is encoded into the document. -/
def entryJSON (entry : Entry) : JSON := JSON.obj (entry.map (fun kv => (kv.1, jsonStr kv.2)))

/-- The inner loop of the staging-area loader (lines 127-132 and 213-218): copy the string-valued
fields of a decoded object into a fresh `map[string]string`. -/
def stringFields (m : GoMap JSON) : Entry :=
  m.foldl (fun entry kv => match kv.2 with
    | JSON.str s => mapSet entry kv.1 (raw s)
    | _ => entry) []

/-- The staging-area loader of `Add` and `Commit` (lines 122-137 and 208-223). -/
def loadStagingArea (metadata : GoMap JSON) : List Entry :=
  match mapGet metadata "staging_area" with
  | some (JSON.arr arr) =>
    arr.foldl (fun stagingArea v => match v with
      | JSON.obj m => stagingArea ++ [stringFields m]
      | _ => stagingArea) []
  | _ => []

/-- The commit-history loader of `Commit` and `Log` (lines 266-271 and 314-319). -/
def loadCommitHistory (metadata : GoMap JSON) : List JSON :=
  match mapGet metadata "commit_history" with
  | some (JSON.arr arr) => arr
  | _ => []

/-- The error every command returns when `.mygit` does not exist. -/
def notARepository : String := "not a mygit repository (run 'mygit init' first)"

/-- How writing the document back ends (lines 177-187 and 278-288): everything is written;
`os.Create` fails and the file stays as it was; or `os.Create` has truncated the file and
`Encode` fails, `complete` telling whether the bytes written before the failure hold the whole
object (only the final line feed is missing) or an unparsable part of it. -/
inductive WriteOutcome where
  | ok : WriteOutcome
  | createFail (msg : String) : WriteOutcome
  | encodeFail (msg : String) (complete : Bool) : WriteOutcome

/-- Lines 177-187 and 278-288: the error returned and the on-disk state left when `metadata` is
written back. -/
def writeBack (write : WriteOutcome) (r : Repo) (metadata : GoMap JSON) : Option String × Repo :=
  match write with
  | WriteOutcome.ok => (none, { r with decoded := some metadata })
  | WriteOutcome.createFail msg => (some ("failed to update metadata.json: " ++ msg), r)
  | WriteOutcome.encodeFail msg complete =>
    (some ("failed to write metadata.json: " ++ msg),
     { r with decoded := some (if complete then metadata else []) })

/-! ## Add -/

/-- What opening and hashing one file does: `os.Open` fails, `io.Copy` fails, or the whole
content is read. -/
inductive FileRead where
  | openFail (msg : GoString) : FileRead
  | hashFail (msg : GoString) : FileRead
  | ok (content : GoString) : FileRead

/-- The environment `Add` runs in.
* `glob arg`: the matches of `filepath.Glob(arg)`, `none` when it returns an error or `nil`;
* `stat p`: `none` when `os.Stat(p)` fails, otherwise whether `p` is a directory;
* `walk p`: the paths `filepath.Walk(p, ...)` hands to its callback without error and that are
  not directories, in visiting order;
* `readFile p`: the outcome of `os.Open(p)` followed by `io.Copy(sha, f)`;
* `rangeOrder keys`: the order in which `for f := range fileSet` yields the keys of the set
  built from `keys`;
* `write`: how writing the document back ends. -/
structure Env where
  glob : GoString → Option (List GoString)
  stat : GoString → Option Bool
  walk : GoString → List GoString
  readFile : GoString → FileRead
  rangeOrder : List GoString → List GoString
  write : WriteOutcome

/-- A Go map yields every key once, in an unspecified order: `order` is a possible iteration
order of the set built from `keys`. -/
def IsRangeOrder (keys order : List GoString) : Prop :=
  order.Nodup ∧ (∀ f ∈ order, f ∈ keys) ∧ (∀ f ∈ keys, f ∈ order)

instance (keys order : List GoString) : Decidable (IsRangeOrder keys order) :=
  inferInstanceAs (Decidable (order.Nodup ∧ (∀ f ∈ order, f ∈ keys) ∧ (∀ f ∈ keys, f ∈ order)))

/-- Lines 66-78 and 82-94: a path that `os.Stat` finds is walked when it is a directory and
taken as it is otherwise; a path `os.Stat` does not find contributes nothing. -/
def expandPath (env : Env) (p : GoString) : List GoString :=
  match env.stat p with
  | some true => env.walk p
  | some false => [p]
  | none => []

/-- The body of the loop over `args` (lines 62-96). -/
def expandArg (env : Env) (arg : GoString) : List GoString :=
  match env.glob arg with
  | none => expandPath env arg
  | some found => found.foldl (fun acc m => acc ++ expandPath env m) []

/-- The list `filesToAdd` after the loop over `args` (lines 61-96). -/
def filesToAdd (env : Env) (args : List GoString) : List GoString :=
  args.foldl (fun acc arg => acc ++ expandArg env arg) []

/-- The list `uniqueFiles` (lines 103-111): the keys of `fileSet` in iteration order. -/
def uniqueFiles (env : Env) (args : List GoString) : List GoString :=
  env.rangeOrder (filesToAdd env args)

/-- The lookup table `stagedIndex` (lines 140-143). -/
def stagedIndex (stagingArea : List Entry) : List (GoString × Nat) :=
  stagingArea.enum.foldl (fun idx ie => mapSet idx (field ie.2 "file_path") ie.1) []

/-- The test of line 148: the path starts with `.mygit/` or is `.mygit`. -/
def inMyGitDir (filePath : GoString) : Bool :=
  (raw (MyGitDir ++ pathSeparator)).isPrefixOf filePath || filePath == raw MyGitDir

/-- The variables the staging loop updates. -/
structure AddState where
  stagingArea : List Entry
  stdout : List GoString
  stderr : List GoString

/-- One iteration of the loop over `uniqueFiles` (lines 146-173); `sha1hex content` is
`fmt.Sprintf("%x", sha.Sum(nil))` after `content` was copied into `sha`. -/
def addStep (sha1hex : GoString → String) (env : Env) (idx : List (GoString × Nat))
    (st : AddState) (filePath : GoString) : AddState :=
  if inMyGitDir filePath then st
  else match env.readFile filePath with
    | FileRead.openFail msg =>
      { st with stderr := st.stderr ++
          [raw "Warning: could not open " ++ filePath ++ raw ": " ++ msg ++ raw "\n"] }
    | FileRead.hashFail msg =>
      { st with stderr := st.stderr ++
          [raw "Warning: could not hash " ++ filePath ++ raw ": " ++ msg ++ raw "\n"] }
    | FileRead.ok content =>
      let hash := sha1hex content
      let entry : Entry := [("file_path", filePath), ("file_hash", raw hash)]
      match mapGet idx filePath with
      | some i =>
        { st with stagingArea := st.stagingArea.set i entry,
                  stdout := st.stdout ++ [raw "Updated: " ++ filePath ++ raw "\n"] }
      | none =>
        { st with stagingArea := st.stagingArea ++ [entry],
                  stdout := st.stdout ++ [raw "Added: " ++ filePath ++ raw "\n"] }

/-- The loop over `uniqueFiles` (lines 139-173), started from the loaded staging area. -/
def addLoop (sha1hex : GoString → String) (env : Env) (stagingArea : List Entry)
    (files : List GoString) : AddState :=
  files.foldl (addStep sha1hex env (stagedIndex stagingArea))
    { stagingArea := stagingArea, stdout := [], stderr := [] }

/-- The function `Add` of `commands.go`.  The assignment `metadata["staging_area"] = ...` of
line 175 panics when `metadata` is the nil map. -/
def Add (sha1hex : GoString → String) (env : Env) (r : Repo) (args : List GoString) : Result :=
  if !r.initialized then
    { err := some notARepository, panicked := false, repo := r, stdout := [], stderr := [] }
  else if (filesToAdd env args).length = 0 then
    { err := none, panicked := false, repo := r, stdout := [raw "No files to add.\n"],
      stderr := [] }
  else
    let st := addLoop sha1hex env (loadStagingArea r.metadata) (uniqueFiles env args)
    match r.decoded with
    | none =>
      { err := none, panicked := true, repo := r, stdout := st.stdout, stderr := st.stderr }
    | some metadata =>
      let metadata := mapSet metadata "staging_area" (JSON.arr (st.stagingArea.map entryJSON))
      { err := (writeBack env.write r metadata).1, panicked := false,
        repo := (writeBack env.write r metadata).2,
        stdout := st.stdout, stderr := st.stderr }

/-! ## Commit -/

/-- The parent commit id (lines 233-243). -/
def parentCommitID (metadata : GoMap JSON) : GoString :=
  match mapGet metadata "commit_history" with
  | some (JSON.arr arr) =>
    if arr.length > 0 then
      match arr[arr.length - 1]? with
      | some (JSON.obj lastCommit) =>
        match mapGet lastCommit "commit_id" with
        | some (JSON.str id) => raw id
        | _ => []
      | _ => []
    else []
  | _ => []

/-- The string that is hashed into the commit id (lines 245-249). -/
def commitContent (timestamp : String) (message parentCommitID : GoString)
    (stagingArea : List Entry) : GoString :=
  stagingArea.foldl (fun content file => content ++ (field file "file_path" ++ field file "file_hash"))
    (raw timestamp ++ message ++ parentCommitID)

/-- The commit object (lines 251-263), as it is encoded into the document. -/
def commitObject (sha1hex : GoString → String) (timestamp : String) (message : GoString)
    (metadata : GoMap JSON) : JSON :=
  let stagingArea := loadStagingArea metadata
  let parent := parentCommitID metadata
  let commitID := sha1hex (commitContent timestamp message parent stagingArea)
  JSON.obj [("commit_id", jsonStr (raw commitID)),
            ("commit_message", jsonStr message),
            ("commit_timestamp", jsonStr (raw timestamp)),
            ("files", JSON.arr (stagingArea.map entryJSON)),
            ("parent_commit_id", jsonStr parent)]

/-- The function `Commit` of `commands.go`; `timestamp` is
`time.Now().Format("2006-01-02 15:04:05")` and `write` tells how writing the document back
ends. -/
def Commit (sha1hex : GoString → String) (timestamp : String) (write : WriteOutcome)
    (r : Repo) (message : GoString) : Result :=
  if !r.initialized then
    { err := some notARepository, panicked := false, repo := r, stdout := [], stderr := [] }
  else
    let stagingArea := loadStagingArea r.metadata
    if stagingArea.length = 0 then
      { err := some "no files staged for commit", panicked := false, repo := r, stdout := [],
        stderr := [] }
    else
      let commit := commitObject sha1hex timestamp message r.metadata
      let commitHistory := loadCommitHistory r.metadata ++ [commit]
      let metadata := mapSet r.metadata "commit_history" (JSON.arr commitHistory)
      let metadata := mapSet metadata "staging_area" (JSON.arr [])
      match (writeBack write r metadata).1 with
      | some e =>
        { err := some e, panicked := false, repo := (writeBack write r metadata).2,
          stdout := [], stderr := [] }
      | none =>
        { err := none, panicked := false, repo := (writeBack write r metadata).2,
          stdout := [raw ("Committed " ++ toString stagingArea.length ++ " files\n"),
                     raw ("Commit ID: " ++ sha1hex (commitContent timestamp message
                        (parentCommitID r.metadata) stagingArea) ++ "\n"),
                     raw "Message: " ++ message ++ raw "\n"],
          stderr := [] }

/-! ## Log -/

/-- Reading `commitMap[k].(string)` with the `ok` flag dropped: the empty string when the key
is absent or its value is not a string. -/
def stringAt (commitMap : GoMap JSON) (k : String) : String :=
  match mapGet commitMap k with
  | some (JSON.str s) => s
  | _ => ""

/-- The body of the display loop (lines 329-342) for the element `commit`. -/
def showCommit (commit : JSON) : List GoString :=
  match commit with
  | JSON.obj commitMap =>
    [raw ("commit " ++ stringAt commitMap "commit_id" ++ "\n"),
     raw ("Date: " ++ stringAt commitMap "commit_timestamp" ++ "\n"),
     raw "\n",
     raw ("    " ++ stringAt commitMap "commit_message" ++ "\n"),
     raw "\n"]
  | _ => []

/-- The display loop `for i := len(commitHistory) - 1; i >= 0; i--` (lines 328-343);
`logLoop commitHistory n` runs it from `i = n - 1` down to `0`. -/
def logLoop (commitHistory : List JSON) : Nat → List GoString
  | 0 => []
  | i + 1 =>
    (match commitHistory[i]? with
      | some commit => showCommit commit
      | none => []) ++ logLoop commitHistory i

/-- The function `Log` of `commands.go`. -/
def Log (r : Repo) : Result :=
  if !r.initialized then
    { err := some notARepository, panicked := false, repo := r, stdout := [], stderr := [] }
  else
    let commitHistory := loadCommitHistory r.metadata
    if commitHistory.length = 0 then
      { err := none, panicked := false, repo := r, stdout := [raw "No commits yet\n"],
        stderr := [] }
    else
      { err := none, panicked := false, repo := r,
        stdout := logLoop commitHistory commitHistory.length, stderr := [] }

/-! ## The command line -/

/-- What the process leaves behind: its exit code, the on-disk state and its output. -/
structure Exit where
  code : Nat
  repo : Repo
  stdout : List GoString
  stderr : List GoString

/-- How `main` ends after a command returned (`if err := ...; err != nil`), or after it
panicked: the Go run time then prints the panic, followed by a stack trace that is left out
here, and exits with code 2. -/
def exitOf (res : Result) : Exit :=
  if res.panicked then
    { code := 2, repo := res.repo, stdout := res.stdout,
      stderr := res.stderr ++ [raw "panic: assignment to entry in nil map\n"] }
  else match res.err with
    | some e =>
      { code := 1, repo := res.repo, stdout := res.stdout,
        stderr := res.stderr ++ [raw ("Error: " ++ e ++ "\n")] }
    | none => { code := 0, repo := res.repo, stdout := res.stdout, stderr := res.stderr }

/-- The `add` case of `main` (lines 26-34). -/
def mainAdd (sha1hex : GoString → String) (env : Env) (r : Repo) (args : List GoString) :
    Exit :=
  if args.length = 0 then
    { code := 1, repo := r, stdout := [],
      stderr := [raw "Error: add command requires file path(s)\n"] }
  else exitOf (Add sha1hex env r args)

/-- The `commit` case of `main` (lines 35-48); `message` is the value of the `-m` flag after
`commitCmd.Parse(args)`, the empty string when the flag is not given. -/
def mainCommit (sha1hex : GoString → String) (timestamp : String) (write : WriteOutcome)
    (r : Repo) (message : GoString) : Exit :=
  if message = [] then
    { code := 1, repo := r, stdout := [],
      stderr := [raw "Error: commit message is required (-m flag)\n"] }
  else exitOf (Commit sha1hex timestamp write r message)

/-! ## Properties: notions used to state them -/

/-- The `commit_id` of a record of the history, read as `Commit` and `Log` read it. -/
def commitIdOf (commit : JSON) : String :=
  match commit with
  | JSON.obj commitMap => stringAt commitMap "commit_id"
  | _ => ""

/-- The `parent_commit_id` of a record of the history. -/
def parentIdOf (commit : JSON) : String :=
  match commit with
  | JSON.obj commitMap => stringAt commitMap "parent_commit_id"
  | _ => ""

/-- The `commit_message` of a record of the history. -/
def messageOf (commit : JSON) : String :=
  match commit with
  | JSON.obj commitMap => stringAt commitMap "commit_message"
  | _ => ""

/-- The `file_path` of every entry of a staging area, in order. -/
def filePaths (stagingArea : List Entry) : List GoString :=
  stagingArea.map (fun entry => field entry "file_path")

/-- The staging area holds at most one entry per `file_path`. -/
def UniquePaths (stagingArea : List Entry) : Prop := (filePaths stagingArea).Nodup

instance (stagingArea : List Entry) : Decidable (UniquePaths stagingArea) :=
  inferInstanceAs (Decidable (filePaths stagingArea).Nodup)

/-- The empty document of an initialized repository. -/
def emptyRepo : Repo := { initialized := true, decoded := some [] }

/-- The documents reached from the empty document by calls of `Add` and `Commit`, in any
environment and at any time. -/
inductive Reachable (sha1hex : GoString → String) : Repo → Prop where
  | empty : Reachable sha1hex emptyRepo
  | add (env : Env) (args : List GoString) {r : Repo} :
      Reachable sha1hex r → Reachable sha1hex (Add sha1hex env r args).repo
  | commit (timestamp : String) (write : WriteOutcome) (message : GoString) {r : Repo} :
      Reachable sha1hex r → Reachable sha1hex (Commit sha1hex timestamp write r message).repo

/-- The documents reached from the empty document through the `add` and `commit` commands of
the command line. -/
inductive CliReachable (sha1hex : GoString → String) : Repo → Prop where
  | empty : CliReachable sha1hex emptyRepo
  | add (env : Env) (args : List GoString) {r : Repo} :
      CliReachable sha1hex r → CliReachable sha1hex (mainAdd sha1hex env r args).repo
  | commit (timestamp : String) (write : WriteOutcome) (message : GoString) {r : Repo} :
      CliReachable sha1hex r →
      CliReachable sha1hex (mainCommit sha1hex timestamp write r message).repo

/-- The element of a decoded `staging_area` array as the loader reads it: an object gives an
entry, anything else is dropped. -/
def entryOfValue (v : JSON) : Option Entry :=
  match v with
  | JSON.obj m => some (stringFields m)
  | _ => none

/-- The `(file_path, file_hash)` pair of a staging entry. -/
def pathAndHash (entry : Entry) : GoString × GoString :=
  (field entry "file_path", field entry "file_hash")

/-- The `(file_path, file_hash)` pair of an element of the `files` array of a commit record. -/
def pathAndHashOfValue (v : JSON) : GoString × GoString :=
  match v with
  | JSON.obj m => (raw (stringAt m "file_path"), raw (stringAt m "file_hash"))
  | _ => ([], [])

/-- The keys of a Go map are pairwise different. -/
def KeysNodup {κ α : Type} (m : List (κ × α)) : Prop := (m.map Prod.fst).Nodup

/-- A well-formed element of a `staging_area` array: an object all of whose values are
strings. -/
def WellFormedEntry (v : JSON) : Prop :=
  ∃ fields : List (String × String), KeysNodup fields ∧
    v = JSON.obj (fields.map (fun kv => (kv.1, JSON.str kv.2)))

/-- The Go string a later run of a command reads for a Go string that was written into the
document. -/
def readBack (s : GoString) : GoString := raw (encodedString s)

/-- The entry a later run of a command reads for an entry that was written into the
document. -/
def entryReadBack (entry : Entry) : Entry := entry.map (fun kv => (kv.1, readBack kv.2))

/-- Every value of the entry is the bytes of a text (valid UTF-8). -/
def TextValues (entry : Entry) : Prop := ∀ kv ∈ entry, ∃ s : String, kv.2 = raw s

/-- The entry the staging loop builds for the path `f` of a file with content `content`
(line 165). -/
def stagedEntry (sha1hex : GoString → String) (f content : GoString) : Entry :=
  [("file_path", f), ("file_hash", raw (sha1hex content))]

/-- A stand-in for the digest in examples: the text `sha1 of ` followed by the content. -/
def standInDigest (content : GoString) : String := encodedString (raw "sha1 of " ++ content)

/-- A working directory that holds the regular file `exists.txt` with content `hello` and
nothing else: `filepath.Glob` and `os.Stat` find `exists.txt` only, and opening any other path
fails. -/
def oneFileEnv : Env :=
  { glob := fun arg => if arg = raw "exists.txt" then some [raw "exists.txt"] else none,
    stat := fun p => if p = raw "exists.txt" then some false else none,
    walk := fun _ => [],
    readFile := fun p =>
      if p = raw "exists.txt" then FileRead.ok (raw "hello")
      else FileRead.openFail (raw "open " ++ p ++ raw ": no such file or directory"),
    rangeOrder := fun keys => keys.dedup,
    write := WriteOutcome.ok }

/-- A working directory whose repository document is reached by the path
`./.mygit/metadata.json`: `filepath.Glob` returns a pattern without metacharacters as it is
written when the file exists, and `os.Stat` finds a regular file. -/
def dotSlashEnv : Env :=
  { glob := fun arg =>
      if arg = raw "./.mygit/metadata.json" then some [raw "./.mygit/metadata.json"] else none,
    stat := fun p => if p = raw "./.mygit/metadata.json" then some false else none,
    walk := fun _ => [],
    readFile := fun p =>
      if p = raw "./.mygit/metadata.json" then FileRead.ok (raw "{}")
      else FileRead.openFail (raw "open " ++ p ++ raw ": no such file or directory"),
    rangeOrder := fun keys => keys.dedup,
    write := WriteOutcome.ok }

/-- The name `bad\xff.txt`: the byte `0xff` is not valid UTF-8. -/
def badNameFF : GoString := raw "bad" ++ [0xFF] ++ raw ".txt"

/-- The name `bad\xfe.txt`: the byte `0xfe` is not valid UTF-8. -/
def badNameFE : GoString := raw "bad" ++ [0xFE] ++ raw ".txt"

/-- A working directory that holds the two regular files `bad\xff.txt` and `bad\xfe.txt`, both
with content `hello`, and nothing else. -/
def twoBadNamesEnv : Env :=
  { glob := fun arg => if arg = badNameFF ∨ arg = badNameFE then some [arg] else none,
    stat := fun p => if p = badNameFF ∨ p = badNameFE then some false else none,
    walk := fun _ => [],
    readFile := fun p =>
      if p = badNameFF ∨ p = badNameFE then FileRead.ok (raw "hello")
      else FileRead.openFail (raw "open " ++ p ++ raw ": no such file or directory"),
    rangeOrder := fun keys => keys.dedup,
    write := WriteOutcome.ok }

/-- A working directory in which every path the command is given names a regular file with
content `content`: `filepath.Glob` returns the path as it is written and `os.Stat` finds a
regular file. -/
def plainFilesEnv (content : GoString) (write : WriteOutcome) : Env :=
  { glob := fun arg => some [arg],
    stat := fun _ => some false,
    walk := fun _ => [],
    readFile := fun _ => FileRead.ok content,
    rangeOrder := fun keys => keys.dedup,
    write := write }

/-- A working directory of regular files with content `hello` on a full disk: `os.Create`
truncates the document and `Encode` writes nothing. -/
def diskFullEnv : Env :=
  plainFilesEnv (raw "hello")
    (WriteOutcome.encodeFail "write .mygit/metadata.json: no space left on device" false)

/-- The digit table `ldigits` of package `fmt`. -/
def ldigits : List Char := "0123456789abcdef".toList

/-- The digit `ldigits[n]`. -/
def hexDigit (n : Nat) : Char := ldigits.getD n '0'

/-- The verb `%x` on one byte `b`: the digits of `b >> 4` and of `b & 0xF`. -/
def hexOfByte (b : Nat) : List Char := [hexDigit (b % 256 / 16), hexDigit (b % 16)]

/-- The string `fmt.Sprintf("%x", bytes)` for a byte slice. -/
def hexOfBytes (bytes : List Nat) : String := String.mk (bytes.flatMap hexOfByte)

/-- The string `fmt.Sprintf("%x", sha.Sum(nil))` after `content` was written into `sha`, where
`sum content` is the slice `sha.Sum(nil)` returns. -/
def sha1hexOf (sum : GoString → List Nat) (content : GoString) : String :=
  hexOfBytes (sum content)

/-- The constant `sha1.Size`: the number of bytes of a SHA-1 checksum. -/
def sha1Size : Nat := 20

/-- A string of exactly 40 characters, each a lowercase hexadecimal digit. -/
def IsHex40 (s : String) : Prop := s.length = 40 ∧ ∀ c ∈ s.toList, c ∈ ldigits

instance (s : String) : Decidable (IsHex40 s) :=
  inferInstanceAs (Decidable (s.length = 40 ∧ ∀ c ∈ s.toList, c ∈ ldigits))

/-- The function `hashCommit` in the words of the specification (section 4.1): concatenate, in
order, `timestamp`, `message`, `parentId`, then for every file of `files` its `file_path` and
its `file_hash`, and take the digest of the result. -/
def hashCommitSpec (digest : GoString → String) (timestamp : String)
    (message parentId : GoString) (files : List (GoString × GoString)) : String :=
  digest (List.flatten ([raw timestamp, message, parentId] ++
    files.flatMap (fun f => [f.1, f.2])))

/-! ## Lemmas on Go strings -/

theorem char_valid (c : Char) : c.toNat < 0xD800 ∨ (0xDFFF < c.toNat ∧ c.toNat < 0x110000) := by
  have := c.valid
  simp only [UInt32.isValidChar, Nat.isValidChar] at this
  exact this

theorem validChars_ascii (b : Nat) (rest : GoString) (h : b < 0x80) :
    validChars 0 (b :: rest) = Char.ofNat b :: validChars 0 rest := by
  simp [validChars, decodeRune, h]

theorem validChars_two (b0 b1 : Nat) (rest : GoString) (h0 : 0xC2 ≤ b0) (h0' : b0 < 0xE0)
    (h1 : 0x80 ≤ b1) (h1' : b1 ≤ 0xBF) :
    validChars 0 (b0 :: b1 :: rest) =
      Char.ofNat (b0 % 32 * 64 + b1 % 64) :: validChars 0 rest := by
  have a1 : ¬ b0 < 128 := by omega
  have a2 : ¬ b0 < 194 := by omega
  have a3 : b0 < 224 := by omega
  have a4 : isCont b1 = true := by simp [isCont]; omega
  simp [validChars, decodeRune, a1, a2, a3, a4]

theorem validChars_three (b0 b1 b2 : Nat) (rest : GoString) (h0 : 0xE0 ≤ b0) (h0' : b0 < 0xF0)
    (h1 : (if b0 = 0xE0 then 0xA0 else 0x80) ≤ b1)
    (h1' : b1 ≤ (if b0 = 0xED then 0x9F else 0xBF))
    (h2 : 0x80 ≤ b2) (h2' : b2 ≤ 0xBF) :
    validChars 0 (b0 :: b1 :: b2 :: rest) =
      Char.ofNat (b0 % 16 * 4096 + b1 % 64 * 64 + b2 % 64) :: validChars 0 rest := by
  have a1 : ¬ b0 < 128 := by omega
  have a2 : ¬ b0 < 194 := by omega
  have a3 : ¬ b0 < 224 := by omega
  have a4 : b0 < 240 := by omega
  have a5 : isCont b2 = true := by simp [isCont]; omega
  simp only [validChars, decodeRune, a1, a2, a3, a4, a5, if_true, if_false, h1, h1',
    decide_True, Bool.and_self, Nat.add_one_sub_one, Nat.sub_self]

theorem validChars_four (b0 b1 b2 b3 : Nat) (rest : GoString) (h0 : 0xF0 ≤ b0)
    (h0' : b0 < 0xF5)
    (h1 : (if b0 = 0xF0 then 0x90 else 0x80) ≤ b1)
    (h1' : b1 ≤ (if b0 = 0xF4 then 0x8F else 0xBF))
    (h2 : 0x80 ≤ b2) (h2' : b2 ≤ 0xBF) (h3 : 0x80 ≤ b3) (h3' : b3 ≤ 0xBF) :
    validChars 0 (b0 :: b1 :: b2 :: b3 :: rest) =
      Char.ofNat (b0 % 8 * 262144 + b1 % 64 * 4096 + b2 % 64 * 64 + b3 % 64)
        :: validChars 0 rest := by
  have a1 : ¬ b0 < 128 := by omega
  have a2 : ¬ b0 < 194 := by omega
  have a3 : ¬ b0 < 224 := by omega
  have a4 : ¬ b0 < 240 := by omega
  have a5 : b0 < 245 := by omega
  have a6 : isCont b2 = true := by simp [isCont]; omega
  have a7 : isCont b3 = true := by simp [isCont]; omega
  simp only [validChars, decodeRune, a1, a2, a3, a4, a5, a6, a7, if_true, if_false, h1, h1',
    decide_True, Bool.and_self, Nat.add_one_sub_one, Nat.sub_self]

theorem validChars_encodeRune (c : Char) (rest : GoString) :
    validChars 0 (encodeRune c.toNat ++ rest) = c :: validChars 0 rest := by
  have hv := char_valid c
  have hc : Char.ofNat c.toNat = c := Char.ofNat_toNat c
  generalize c.toNat = n at hv hc
  unfold encodeRune
  by_cases h1 : n < 0x80
  · simp only [h1, if_true, List.singleton_append]
    rw [validChars_ascii n rest h1, hc]
  · by_cases h2 : n < 0x800
    · simp only [h1, h2, if_true, if_false, List.cons_append, List.nil_append]
      rw [validChars_two _ _ rest (by omega) (by omega) (by omega) (by omega)]
      have : (192 + n / 64) % 32 * 64 + (128 + n % 64) % 64 = n := by omega
      rw [this, hc]
    · by_cases h3 : n < 0x10000
      · simp only [h1, h2, h3, if_true, if_false, List.cons_append, List.nil_append]
        rw [validChars_three _ _ _ rest (by omega) (by omega) (by split <;> omega)
          (by split <;> omega) (by omega) (by omega)]
        have : (224 + n / 4096) % 16 * 4096 + (128 + n / 64 % 64) % 64 * 64
            + (128 + n % 64) % 64 = n := by omega
        rw [this, hc]
      · simp only [h1, h2, h3, if_false, List.cons_append, List.nil_append]
        rw [validChars_four _ _ _ _ rest (by omega) (by omega) (by split <;> omega)
          (by split <;> omega) (by omega) (by omega) (by omega) (by omega)]
        have : (240 + n / 262144) % 8 * 262144 + (128 + n / 4096 % 64) % 64 * 4096
            + (128 + n / 64 % 64) % 64 * 64 + (128 + n % 64) % 64 = n := by omega
        rw [this, hc]

theorem validChars_raw (cs : List Char) (rest : GoString) :
    validChars 0 (cs.flatMap (fun c => encodeRune c.toNat) ++ rest) = cs ++ validChars 0 rest := by
  induction cs with
  | nil => rfl
  | cons c cs ih =>
    rw [List.flatMap_cons, List.append_assoc, validChars_encodeRune, ih]
    rfl

/-- Text survives the encoder: what `Encode` writes for the bytes of a text reads back as the
text. -/
theorem encodedString_raw (s : String) : encodedString (raw s) = s := by
  unfold encodedString raw
  have := validChars_raw s.toList []
  rw [List.append_nil] at this
  rw [this]
  simp [validChars]

theorem toNat_ofNat_of_valid (n : Nat)
    (h : n < 0xD800 ∨ (0xDFFF < n ∧ n < 0x110000)) : (Char.ofNat n).toNat = n := by
  have hv : n.isValidChar := h
  have hlt : n < UInt32.size := by
    rcases h with h | h
    · exact Nat.lt_trans h (by decide)
    · exact Nat.lt_trans h.2 (by decide)
  simp [Char.ofNat, hv, Char.ofNatAux, Char.toNat, UInt32.toNat, Nat.mod_eq_of_lt hlt]

theorem decodeRune_nonascii (b : Nat) (rest : GoString) (cp size : Nat) (hb : ¬ b < 0x80)
    (h : decodeRune (b :: rest) = some (cp, size)) :
    0x80 ≤ cp ∧ (cp < 0xD800 ∨ (0xDFFF < cp ∧ cp < 0x110000)) := by
  unfold decodeRune at h
  simp only [hb, if_false] at h
  by_cases h2 : b < 0xC2
  · simp [h2] at h
  · simp only [h2, if_false] at h
    by_cases h3 : b < 0xE0
    · simp only [h3, if_true] at h
      match rest, h with
      | [], h => simp at h
      | b1 :: r1, h =>
        dsimp only at h
        split at h
        · rename_i hcond
          simp only [isCont, Bool.and_eq_true, decide_eq_true_eq] at hcond
          simp only [Option.some.injEq, Prod.mk.injEq] at h
          omega
        · simp at h
    · simp only [h3, if_false] at h
      by_cases h4 : b < 0xF0
      · simp only [h4, if_true] at h
        match rest, h with
        | [], h => simp at h
        | [_], h => simp at h
        | b1 :: b2 :: r2, h =>
          dsimp only at h
          simp only [isCont, Bool.and_eq_true, decide_eq_true_eq, ite_eq_left_iff,
            Option.ite_none_right_eq_some, Option.some.injEq, Prod.mk.injEq] at h
          split_ifs at h <;> omega
      · simp only [h4, if_false] at h
        by_cases h5 : b < 0xF5
        · simp only [h5, if_true] at h
          match rest, h with
          | [], h => simp at h
          | [_], h => simp at h
          | [_, _], h => simp at h
          | b1 :: b2 :: b3 :: r3, h =>
            dsimp only at h
            simp only [isCont, Bool.and_eq_true, decide_eq_true_eq, ite_eq_left_iff,
              Option.ite_none_right_eq_some, Option.some.injEq, Prod.mk.injEq] at h
            split_ifs at h <;> omega
        · simp [h5] at h

theorem encodeRune_head_nonascii (cp : Nat) (h : 0x80 ≤ cp) :
    ∃ b t, encodeRune cp = b :: t ∧ 0x80 ≤ b := by
  unfold encodeRune
  have h1 : ¬ cp < 0x80 := by omega
  simp only [h1, if_false]
  by_cases h2 : cp < 0x800
  · exact ⟨0xC0 + cp / 64, [0x80 + cp % 64], by simp only [h2, if_true], by omega⟩
  · by_cases h3 : cp < 0x10000
    · exact ⟨0xE0 + cp / 4096, [0x80 + cp / 64 % 64, 0x80 + cp % 64],
        by simp only [h2, h3, if_true, if_false], by omega⟩
    · exact ⟨0xF0 + cp / 262144, [0x80 + cp / 4096 % 64, 0x80 + cp / 64 % 64, 0x80 + cp % 64],
        by simp only [h2, h3, if_false], by omega⟩

theorem raw_mk_cons (c : Char) (cs : List Char) :
    raw (String.mk (c :: cs)) = encodeRune c.toNat ++ raw (String.mk cs) := rfl

/-- An ASCII byte is written and read back as it is. -/
theorem raw_encodedString_ascii (b : Nat) (rest : GoString) (h : b < 0x80) :
    raw (encodedString (b :: rest)) = b :: raw (encodedString rest) := by
  unfold encodedString
  rw [validChars_ascii b rest h, raw_mk_cons, toNat_ofNat_of_valid b (by omega)]
  simp [encodeRune, h]

/-- What is read back for a string that starts with a byte outside ASCII starts with a byte
outside ASCII. -/
theorem raw_encodedString_nonascii (b : Nat) (rest : GoString) (h : ¬ b < 0x80) :
    ∃ b' t, raw (encodedString (b :: rest)) = b' :: t ∧ 0x80 ≤ b' := by
  unfold encodedString
  simp only [validChars]
  cases hd : decodeRune (b :: rest) with
  | none =>
    dsimp only
    rw [raw_mk_cons]
    obtain ⟨b', t, ht, hb'⟩ := encodeRune_head_nonascii (Char.ofNat 0xFFFD).toNat (by decide)
    exact ⟨b', t ++ _, by rw [ht]; rfl, hb'⟩
  | some p =>
    obtain ⟨cp, size⟩ := p
    obtain ⟨h1, h2⟩ := decodeRune_nonascii b rest cp size h hd
    dsimp only
    rw [raw_mk_cons, toNat_ofNat_of_valid cp h2]
    obtain ⟨b', t, ht, hb'⟩ := encodeRune_head_nonascii cp h1
    exact ⟨b', t ++ _, by rw [ht]; rfl, hb'⟩

theorem encodedString_ne_empty (b : Nat) (rest : GoString) : encodedString (b :: rest) ≠ "" := by
  unfold encodedString
  simp only [validChars]
  cases decodeRune (b :: rest) with
  | none => intro h; simp [String.ext_iff] at h
  | some p => intro h; simp [String.ext_iff] at h

theorem raw_empty : raw "" = [] := rfl

theorem encodedString_nil : encodedString [] = "" := rfl

theorem readBack_raw (s : String) : readBack (raw s) = raw s := by
  unfold readBack; rw [encodedString_raw]

theorem readBack_nil : readBack [] = [] := rfl

/-! ## Lemmas on Go maps and the loaders -/

theorem mapGet_mapSet_self {κ α : Type} [DecidableEq κ] (m : List (κ × α)) (k : κ) (v : α) :
    mapGet (mapSet m k v) k = some v := by
  induction m with
  | nil => simp [mapSet, mapGet]
  | cons kv rest ih =>
    obtain ⟨k', v'⟩ := kv
    by_cases h : k' = k
    · simp [mapSet, mapGet, h]
    · simp [mapSet, mapGet, h, ih]

theorem mapGet_mapSet_ne {κ α : Type} [DecidableEq κ] (m : List (κ × α)) (k k' : κ) (v : α)
    (h : k ≠ k') : mapGet (mapSet m k v) k' = mapGet m k' := by
  induction m with
  | nil => simp [mapSet, mapGet, h]
  | cons kv rest ih =>
    obtain ⟨k₀, v₀⟩ := kv
    by_cases h₀ : k₀ = k
    · subst h₀; simp [mapSet, mapGet, h]
    · by_cases h₁ : k₀ = k'
      · subst h₁; simp [mapSet, mapGet, h₀]
      · simp [mapSet, mapGet, h₀, h₁, ih]

theorem loadStagingArea_of_none (m : GoMap JSON) (h : mapGet m "staging_area" = none) :
    loadStagingArea m = [] := by
  simp [loadStagingArea, h]

theorem loadStagingArea_of_empty (m : GoMap JSON)
    (h : mapGet m "staging_area" = some (JSON.arr [])) : loadStagingArea m = [] := by
  simp [loadStagingArea, h]

theorem loadStagingArea_nil : loadStagingArea [] = [] := rfl

theorem loadCommitHistory_nil : loadCommitHistory [] = [] := rfl

theorem loadCommitHistory_mapSet_staging (m : GoMap JSON) (v : JSON) :
    loadCommitHistory (mapSet m "staging_area" v) = loadCommitHistory m := by
  unfold loadCommitHistory
  rw [mapGet_mapSet_ne m "staging_area" "commit_history" v (by decide)]

theorem loadCommitHistory_mapSet_history (m : GoMap JSON) (h : List JSON) :
    loadCommitHistory (mapSet m "commit_history" (JSON.arr h)) = h := by
  simp [loadCommitHistory, mapGet_mapSet_self]

/-- The document `Commit` tries to write. -/
theorem loadCommitHistory_commitDoc (m : GoMap JSON) (h : List JSON) :
    loadCommitHistory (mapSet (mapSet m "commit_history" (JSON.arr h)) "staging_area"
      (JSON.arr [])) = h := by
  rw [loadCommitHistory_mapSet_staging, loadCommitHistory_mapSet_history]

theorem loadStagingArea_commitDoc (m : GoMap JSON) (h : List JSON) :
    loadStagingArea (mapSet (mapSet m "commit_history" (JSON.arr h)) "staging_area"
      (JSON.arr [])) = [] :=
  loadStagingArea_of_empty _ (mapGet_mapSet_self _ _ _)

/-- What a successful `Commit` leaves on disk. -/
theorem Commit_ok_metadata (sha1hex : GoString → String) (timestamp : String)
    (write : WriteOutcome) (r : Repo) (message : GoString)
    (hok : (Commit sha1hex timestamp write r message).err = none) :
    r.initialized = true ∧ loadStagingArea r.metadata ≠ [] ∧ write = WriteOutcome.ok ∧
    (Commit sha1hex timestamp write r message).repo.metadata =
      mapSet (mapSet r.metadata "commit_history"
        (JSON.arr (loadCommitHistory r.metadata ++ [commitObject sha1hex timestamp message r.metadata])))
        "staging_area" (JSON.arr []) := by
  unfold Commit at hok ⊢
  cases hi : r.initialized
  · simp [hi] at hok
  · cases hs : loadStagingArea r.metadata with
    | nil => simp [hi, hs] at hok
    | cons e rest =>
      cases write with
      | ok => simp [hi, hs, writeBack, Repo.metadata]
      | createFail msg => simp [hi, hs, writeBack] at hok
      | encodeFail msg complete => simp [hi, hs, writeBack] at hok

/-- When is `Commit` successful: the repository is initialized, something is staged and the
document is written in full. -/
theorem Commit_ok_iff (sha1hex : GoString → String) (timestamp : String)
    (write : WriteOutcome) (r : Repo) (message : GoString) :
    (Commit sha1hex timestamp write r message).err = none ↔
      (r.initialized = true ∧ loadStagingArea r.metadata ≠ [] ∧ write = WriteOutcome.ok) := by
  constructor
  · intro h
    have := Commit_ok_metadata sha1hex timestamp write r message h
    exact ⟨this.1, this.2.1, this.2.2.1⟩
  · rintro ⟨hi, hs, hc⟩
    subst hc
    unfold Commit
    cases hs' : loadStagingArea r.metadata with
    | nil => exact absurd hs' hs
    | cons e rest => simp [hi, writeBack]

/-- The document `Commit` leaves: the one it found, the one with the new record, or the empty
one after a write that failed on the truncated file. -/
theorem Commit_repo_cases (sha1hex : GoString → String) (timestamp : String)
    (write : WriteOutcome) (r : Repo) (message : GoString) :
    (Commit sha1hex timestamp write r message).repo = r ∨
    (Commit sha1hex timestamp write r message).repo.metadata =
      mapSet (mapSet r.metadata "commit_history"
        (JSON.arr (loadCommitHistory r.metadata ++ [commitObject sha1hex timestamp message r.metadata])))
        "staging_area" (JSON.arr []) ∨
    (Commit sha1hex timestamp write r message).repo.metadata = [] := by
  unfold Commit
  cases hi : r.initialized
  · simp
  · cases hs : loadStagingArea r.metadata with
    | nil => simp
    | cons e rest =>
      cases write with
      | ok => right; left; simp [writeBack, Repo.metadata]
      | createFail msg => left; simp [writeBack]
      | encodeFail msg complete =>
        cases complete
        · right; right; simp [writeBack, Repo.metadata]
        · right; left; simp [writeBack, Repo.metadata]

/-! ## C1: committing with nothing staged -/

/-- C1: when the `staging_area` of the document is absent or is the empty array, `Commit`
returns an error for every message and every `commit_history`, the error is
"no files staged for commit" in an initialized repository, and the document on disk is the one
`Commit` started from. -/
theorem commit_empty_staging_fails (sha1hex : GoString → String) (timestamp : String)
    (write : WriteOutcome) (r : Repo) (message : GoString)
    (h : mapGet r.metadata "staging_area" = none ∨
         mapGet r.metadata "staging_area" = some (JSON.arr [])) :
    (Commit sha1hex timestamp write r message).err ≠ none ∧
    (Commit sha1hex timestamp write r message).repo = r ∧
    (r.initialized = true →
      (Commit sha1hex timestamp write r message).err = some "no files staged for commit") := by
  have hs : loadStagingArea r.metadata = [] := by
    rcases h with h | h
    · exact loadStagingArea_of_none _ h
    · exact loadStagingArea_of_empty _ h
  have herr : (Commit sha1hex timestamp write r message).err ≠ none := by
    intro hok
    exact (Commit_ok_metadata sha1hex timestamp write r message hok).2.1 hs
  refine ⟨herr, ?_, ?_⟩
  · unfold Commit
    cases hi : r.initialized <;> simp [hs]
  · intro hi
    simp [Commit, hi, hs]

/-- C1 at a document with one commit and an empty staging area. -/
theorem commit_empty_staging_fails_witness :
    (mapGet ([("commit_history", JSON.arr [JSON.obj [("commit_id", JSON.str "c1")]]),
              ("staging_area", JSON.arr [])] : GoMap JSON) "staging_area" = none ∨
     mapGet ([("commit_history", JSON.arr [JSON.obj [("commit_id", JSON.str "c1")]]),
              ("staging_area", JSON.arr [])] : GoMap JSON) "staging_area" = some (JSON.arr [])) ∧
    (Commit (fun _ => "da39") "2024-01-01 00:00:00" WriteOutcome.ok
      { initialized := true,
        decoded := some [("commit_history", JSON.arr [JSON.obj [("commit_id", JSON.str "c1")]]),
                         ("staging_area", JSON.arr [])] } (raw "Empty commit")).err
      = some "no files staged for commit" :=
  ⟨Or.inr (by simp [mapGet]),
   (commit_empty_staging_fails (fun _ => "da39") "2024-01-01 00:00:00" WriteOutcome.ok
      { initialized := true,
        decoded := some [("commit_history", JSON.arr [JSON.obj [("commit_id", JSON.str "c1")]]),
                         ("staging_area", JSON.arr [])] } (raw "Empty commit")
      (Or.inr (by simp [mapGet, Repo.metadata]))).2.2 rfl⟩

/-! ## C2: the history is append-only -/

/-- The document `Add` leaves: the one it found, the one with the new staging area, or the
empty one after a write that failed on the truncated file. -/
theorem Add_repo_cases (sha1hex : GoString → String) (env : Env) (r : Repo)
    (args : List GoString) :
    (Add sha1hex env r args).repo = r ∨
    (Add sha1hex env r args).repo.metadata =
      mapSet r.metadata "staging_area"
        (JSON.arr ((addLoop sha1hex env (loadStagingArea r.metadata)
          (uniqueFiles env args)).stagingArea.map entryJSON)) ∨
    ((Add sha1hex env r args).repo.metadata = [] ∧
      ∃ msg, env.write = WriteOutcome.encodeFail msg false ∧
        (Add sha1hex env r args).err = some ("failed to write metadata.json: " ++ msg)) := by
  unfold Add
  cases hi : r.initialized
  · simp
  · by_cases hl : (filesToAdd env args).length = 0
    · simp [hl]
    · cases hd : r.decoded with
      | none => simp [hl]
      | some m =>
        cases hw : env.write with
        | ok => right; left; simp [hl, writeBack, Repo.metadata, hd]
        | createFail msg => left; simp [hl, writeBack]
        | encodeFail msg complete =>
          cases complete
          · right; right; simp [hl, writeBack, Repo.metadata]
          · right; left; simp [hl, writeBack, Repo.metadata, hd]

/-- `Add` leaves the history as it is, or loses it in a write that failed on the truncated
file. -/
theorem Add_history_cases (sha1hex : GoString → String) (env : Env) (r : Repo)
    (args : List GoString) :
    loadCommitHistory (Add sha1hex env r args).repo.metadata = loadCommitHistory r.metadata ∨
    (loadCommitHistory (Add sha1hex env r args).repo.metadata = [] ∧
      ∃ msg, env.write = WriteOutcome.encodeFail msg false ∧
        (Add sha1hex env r args).err = some ("failed to write metadata.json: " ++ msg)) := by
  rcases Add_repo_cases sha1hex env r args with h | h | ⟨h, hmsg⟩
  · left; rw [h]
  · left; rw [h]; exact loadCommitHistory_mapSet_staging _ _
  · right; rw [h]; exact ⟨rfl, hmsg⟩

theorem Commit_ok_history (sha1hex : GoString → String) (timestamp : String)
    (write : WriteOutcome) (r : Repo) (message : GoString)
    (hok : (Commit sha1hex timestamp write r message).err = none) :
    loadCommitHistory (Commit sha1hex timestamp write r message).repo.metadata =
      loadCommitHistory r.metadata ++ [commitObject sha1hex timestamp message r.metadata] := by
  rw [(Commit_ok_metadata sha1hex timestamp write r message hok).2.2.2,
    loadCommitHistory_commitDoc]

/-- The history `Commit` leaves: the one it found, the one it found with the new record, or
none after a write that failed on the truncated file. -/
theorem Commit_history_cases (sha1hex : GoString → String) (timestamp : String)
    (write : WriteOutcome) (r : Repo) (message : GoString) :
    loadCommitHistory (Commit sha1hex timestamp write r message).repo.metadata =
      loadCommitHistory r.metadata ∨
    loadCommitHistory (Commit sha1hex timestamp write r message).repo.metadata =
      loadCommitHistory r.metadata ++ [commitObject sha1hex timestamp message r.metadata] ∨
    loadCommitHistory (Commit sha1hex timestamp write r message).repo.metadata = [] := by
  rcases Commit_repo_cases sha1hex timestamp write r message with h | h | h
  · left; rw [h]
  · right; left; rw [h, loadCommitHistory_commitDoc]
  · right; right; rw [h]; rfl

/-- C2, as the claim states it, fails: with one commit in the history and a full disk, `Add`
truncates the document, fails to write it, returns the error and leaves no history. -/
theorem add_failed_write_loses_history :
    (Add (fun _ => "da39") diskFullEnv
      { initialized := true,
        decoded := some [("commit_history", JSON.arr [JSON.obj [("commit_id", JSON.str "c1")]])] }
      [raw "a.txt"]).err
      = some "failed to write metadata.json: write .mygit/metadata.json: no space left on device" ∧
    loadCommitHistory (Add (fun _ => "da39") diskFullEnv
      { initialized := true,
        decoded := some [("commit_history", JSON.arr [JSON.obj [("commit_id", JSON.str "c1")]])] }
      [raw "a.txt"]).repo.metadata = [] ∧
    loadCommitHistory (Add (fun _ => "da39") diskFullEnv
      { initialized := true,
        decoded := some [("commit_history", JSON.arr [JSON.obj [("commit_id", JSON.str "c1")]])] }
      [raw "a.txt"]).repo.metadata ≠
    loadCommitHistory (Repo.metadata (Repo.mk true
      (some [("commit_history", JSON.arr [JSON.obj [("commit_id", JSON.str "c1")]])]))) := by
  have h : loadCommitHistory (Add (fun _ => "da39") diskFullEnv
      { initialized := true,
        decoded := some [("commit_history", JSON.arr [JSON.obj [("commit_id", JSON.str "c1")]])] }
      [raw "a.txt"]).repo.metadata = [] := rfl
  refine ⟨by decide, h, ?_⟩
  rw [h]
  simp [loadCommitHistory, mapGet, Repo.metadata]

/-- C2, amended: `Add` leaves `commit_history` as it is unless its write of the document fails
after the file was truncated, so whenever it returns no error; and a successful `Commit` leaves
the prior `commit_history` followed by exactly one new record: the length grows by one and
every prior record stays at its index. -/
theorem commit_history_append_only (sha1hex : GoString → String) (env : Env)
    (args : List GoString) (timestamp : String) (write : WriteOutcome) (r : Repo)
    (message : GoString) :
    ((∀ msg, env.write ≠ WriteOutcome.encodeFail msg false) →
      loadCommitHistory (Add sha1hex env r args).repo.metadata = loadCommitHistory r.metadata) ∧
    ((Add sha1hex env r args).err = none →
      loadCommitHistory (Add sha1hex env r args).repo.metadata = loadCommitHistory r.metadata) ∧
    ((Commit sha1hex timestamp write r message).err = none →
      loadCommitHistory (Commit sha1hex timestamp write r message).repo.metadata =
        loadCommitHistory r.metadata ++ [commitObject sha1hex timestamp message r.metadata] ∧
      (loadCommitHistory (Commit sha1hex timestamp write r message).repo.metadata).length =
        (loadCommitHistory r.metadata).length + 1 ∧
      ∀ i, i < (loadCommitHistory r.metadata).length →
        (loadCommitHistory (Commit sha1hex timestamp write r message).repo.metadata)[i]? =
          (loadCommitHistory r.metadata)[i]?) := by
  refine ⟨?_, ?_, ?_⟩
  · intro hw
    rcases Add_history_cases sha1hex env r args with h | ⟨_, msg, hmsg, _⟩
    · exact h
    · exact absurd hmsg (hw msg)
  · intro hok
    rcases Add_history_cases sha1hex env r args with h | ⟨_, msg, _, herr⟩
    · exact h
    · rw [hok] at herr; cases herr
  · intro hok
    have h := Commit_ok_history sha1hex timestamp write r message hok
    refine ⟨h, ?_, ?_⟩
    · rw [h]; simp
    · intro i hi
      rw [h, List.getElem?_append_left hi]

/-- C2, amended, at a document with one commit and one staged file: `Add` of another file
returns no error, and `Commit` succeeds and leaves two records. -/
theorem commit_history_append_only_witness :
    (Add (fun _ => "da39") oneFileEnv
      { initialized := true,
        decoded := some [("commit_history", JSON.arr [JSON.obj [("commit_id", JSON.str "c1")]]),
          ("staging_area", JSON.arr [JSON.obj [("file_path", JSON.str "a.txt"),
                                               ("file_hash", JSON.str "h1")]])] }
      [raw "exists.txt"]).err = none ∧
    loadCommitHistory (Add (fun _ => "da39") oneFileEnv
      { initialized := true,
        decoded := some [("commit_history", JSON.arr [JSON.obj [("commit_id", JSON.str "c1")]]),
          ("staging_area", JSON.arr [JSON.obj [("file_path", JSON.str "a.txt"),
                                               ("file_hash", JSON.str "h1")]])] }
      [raw "exists.txt"]).repo.metadata = [JSON.obj [("commit_id", JSON.str "c1")]] ∧
    (Commit (fun _ => "da39") "2024-01-01 00:00:00" WriteOutcome.ok
      { initialized := true,
        decoded := some [("commit_history", JSON.arr [JSON.obj [("commit_id", JSON.str "c1")]]),
          ("staging_area", JSON.arr [JSON.obj [("file_path", JSON.str "a.txt"),
                                               ("file_hash", JSON.str "h1")]])] }
      (raw "Second commit")).err = none ∧
    (loadCommitHistory (Commit (fun _ => "da39") "2024-01-01 00:00:00" WriteOutcome.ok
      { initialized := true,
        decoded := some [("commit_history", JSON.arr [JSON.obj [("commit_id", JSON.str "c1")]]),
          ("staging_area", JSON.arr [JSON.obj [("file_path", JSON.str "a.txt"),
                                               ("file_hash", JSON.str "h1")]])] }
      (raw "Second commit")).repo.metadata).length = 1 + 1 :=
  ⟨by decide,
   ((commit_history_append_only (fun _ => "da39") oneFileEnv [raw "exists.txt"]
      "2024-01-01 00:00:00" WriteOutcome.ok
      { initialized := true,
        decoded := some [("commit_history", JSON.arr [JSON.obj [("commit_id", JSON.str "c1")]]),
          ("staging_area", JSON.arr [JSON.obj [("file_path", JSON.str "a.txt"),
                                               ("file_hash", JSON.str "h1")]])] }
      (raw "Second commit")).2.1 (by decide)).trans rfl,
   by decide,
   ((commit_history_append_only (fun _ => "da39") oneFileEnv [raw "exists.txt"]
      "2024-01-01 00:00:00" WriteOutcome.ok
      { initialized := true,
        decoded := some [("commit_history", JSON.arr [JSON.obj [("commit_id", JSON.str "c1")]]),
          ("staging_area", JSON.arr [JSON.obj [("file_path", JSON.str "a.txt"),
                                               ("file_hash", JSON.str "h1")]])] }
      (raw "Second commit")).2.2 (by decide)).2.1⟩

/-! ## C3: chain integrity -/

theorem parentCommitID_eq (m : GoMap JSON) :
    parentCommitID m =
      match (loadCommitHistory m).getLast? with
      | some last => raw (commitIdOf last)
      | none => [] := by
  unfold parentCommitID loadCommitHistory
  cases hm : mapGet m "commit_history" with
  | none => simp
  | some v =>
    cases v with
    | arr a =>
      simp only [List.getLast?_eq_getElem?]
      by_cases ha : a.length > 0
      · simp only [ha, if_true]
        cases hl : a[a.length - 1]? with
        | none => rfl
        | some c =>
          cases c with
          | obj cm =>
            simp only [commitIdOf, stringAt]
            cases mapGet cm "commit_id" with
            | none => rfl
            | some w => cases w <;> rfl
          | _ => rfl
      · have : a = [] := by
          cases a with
          | nil => rfl
          | cons x xs => simp at ha
        subst this
        simp
    | _ => simp

/-- The parent id `Commit` computes is the bytes of a text. -/
theorem parentCommitID_text (m : GoMap JSON) :
    parentCommitID m = raw (match (loadCommitHistory m).getLast? with
      | some last => commitIdOf last
      | none => "") := by
  rw [parentCommitID_eq]
  cases (loadCommitHistory m).getLast? <;> rfl

theorem parentIdOf_commitObject (sha1hex : GoString → String) (timestamp : String)
    (message : GoString) (m : GoMap JSON) :
    parentIdOf (commitObject sha1hex timestamp message m) =
      match (loadCommitHistory m).getLast? with
      | some last => commitIdOf last
      | none => "" := by
  have h : parentIdOf (commitObject sha1hex timestamp message m) =
      encodedString (parentCommitID m) := by
    simp [commitObject, parentIdOf, stringAt, mapGet, jsonStr]
  rw [h, parentCommitID_text, encodedString_raw]

/-- The chain property of a history: the first record has the empty parent and every other
record has the `commit_id` of the record just before it as parent. -/
theorem chain_append (h : List JSON) (c : JSON)
    (hhead : ∀ a, h.head? = some a → parentIdOf a = "")
    (hlink : ∀ i a b, h[i]? = some a → h[i + 1]? = some b → parentIdOf b = commitIdOf a)
    (hc : parentIdOf c = match h.getLast? with
      | some last => commitIdOf last
      | none => "") :
    (∀ a, (h ++ [c]).head? = some a → parentIdOf a = "") ∧
    (∀ i a b, (h ++ [c])[i]? = some a → (h ++ [c])[i + 1]? = some b →
      parentIdOf b = commitIdOf a) := by
  constructor
  · intro a ha
    cases h with
    | nil =>
      simp at ha
      subst ha
      simpa using hc
    | cons x xs =>
      simp at ha
      subst ha
      exact hhead x rfl
  · intro i a b ha hb
    by_cases h1 : i + 1 < h.length
    · rw [List.getElem?_append_left (by omega)] at ha
      rw [List.getElem?_append_left h1] at hb
      exact hlink i a b ha hb
    · by_cases h2 : i + 1 = h.length
      · rw [List.getElem?_append_left (by omega)] at ha
        rw [List.getElem?_append_right (by omega)] at hb
        have hb' : b = c := by
          have : i + 1 - h.length = 0 := by omega
          rw [this] at hb
          simpa using hb.symm
        subst hb'
        have hlast : h.getLast? = some a := by
          rw [List.getLast?_eq_getElem?]
          have : h.length - 1 = i := by omega
          rw [this]; exact ha
        rw [hlast] at hc
        exact hc
      · rw [List.getElem?_append_right (by omega)] at hb
        have : i + 1 - h.length = (i - h.length) + 1 := by omega
        rw [this] at hb
        simp at hb

theorem chain_nil :
    (∀ a, ([] : List JSON).head? = some a → parentIdOf a = "") ∧
    (∀ i a b, ([] : List JSON)[i]? = some a → ([] : List JSON)[i + 1]? = some b →
      parentIdOf b = commitIdOf a) := by
  simp

theorem reachable_chain (sha1hex : GoString → String) (r : Repo) (hr : Reachable sha1hex r) :
    (∀ a, (loadCommitHistory r.metadata).head? = some a → parentIdOf a = "") ∧
    (∀ i a b, (loadCommitHistory r.metadata)[i]? = some a →
      (loadCommitHistory r.metadata)[i + 1]? = some b → parentIdOf b = commitIdOf a) := by
  induction hr with
  | empty => exact chain_nil
  | add env args _ ih =>
    rcases Add_history_cases sha1hex env _ args with h | ⟨h, _⟩
    · rw [h]; exact ih
    · rw [h]; exact chain_nil
  | @commit timestamp write message r _ ih =>
    rcases Commit_history_cases sha1hex timestamp write r message with h | h | h
    · rw [h]; exact ih
    · rw [h]
      apply chain_append _ _ ih.1 ih.2
      exact parentIdOf_commitObject sha1hex timestamp message r.metadata
    · rw [h]; exact chain_nil

/-- C3: the record a successful `Commit` appends has as `parent_commit_id` the `commit_id` of
the last record of the prior `commit_history`, and the empty string when the prior
`commit_history` is empty; and in every document reached from the empty document by calls of
`Add` and `Commit`, the first record has the empty string as `parent_commit_id` and every other
record has the `commit_id` of the record just before it. -/
theorem chain_integrity (sha1hex : GoString → String) (timestamp : String)
    (write : WriteOutcome) (r : Repo) (message : GoString)
    (hok : (Commit sha1hex timestamp write r message).err = none) :
    (∃ c, (loadCommitHistory (Commit sha1hex timestamp write r message).repo.metadata).getLast?
        = some c ∧
      (loadCommitHistory r.metadata = [] → parentIdOf c = "") ∧
      (∀ last, (loadCommitHistory r.metadata).getLast? = some last →
        parentIdOf c = commitIdOf last)) ∧
    (∀ r', Reachable sha1hex r' →
      (∀ a, (loadCommitHistory r'.metadata).head? = some a → parentIdOf a = "") ∧
      (∀ i a b, (loadCommitHistory r'.metadata)[i]? = some a →
        (loadCommitHistory r'.metadata)[i + 1]? = some b → parentIdOf b = commitIdOf a)) := by
  refine ⟨⟨commitObject sha1hex timestamp message r.metadata, ?_, ?_, ?_⟩, ?_⟩
  · rw [Commit_ok_history sha1hex timestamp write r message hok]; simp
  · intro he
    rw [parentIdOf_commitObject, he]; rfl
  · intro last hl
    rw [parentIdOf_commitObject, hl]
  · intro r' hr'
    exact reachable_chain sha1hex r' hr'

/-- C3 at the empty document: one file is staged and committed. -/
theorem chain_integrity_witness :
    (Commit (fun _ => "da39") "2024-01-01 00:00:00" WriteOutcome.ok
      { initialized := true,
        decoded := some [("staging_area", JSON.arr [JSON.obj [("file_path", JSON.str "a.txt"),
                                                              ("file_hash", JSON.str "h1")]])] }
      (raw "First commit")).err = none ∧
    (∀ a, (loadCommitHistory (Commit (fun _ => "da39") "2024-01-01 00:00:00" WriteOutcome.ok
        (Add (fun _ => "da39") oneFileEnv emptyRepo [raw "exists.txt"]).repo
        (raw "First commit")).repo.metadata).head? = some a →
      parentIdOf a = "") :=
  ⟨by decide,
   ((chain_integrity (fun _ => "da39") "2024-01-01 00:00:00" WriteOutcome.ok
      { initialized := true,
        decoded := some [("staging_area", JSON.arr [JSON.obj [("file_path", JSON.str "a.txt"),
                                                              ("file_hash", JSON.str "h1")]])] }
      (raw "First commit") (by decide)).2 _
      (Reachable.commit "2024-01-01 00:00:00" WriteOutcome.ok (raw "First commit")
        (Reachable.add oneFileEnv [raw "exists.txt"] Reachable.empty))).1⟩

/-! ## C4: the record is a snapshot of the staging area -/

theorem mapSet_of_not_mem {κ α : Type} [DecidableEq κ] (m : List (κ × α)) (k : κ) (v : α)
    (h : k ∉ m.map Prod.fst) : mapSet m k v = m ++ [(k, v)] := by
  induction m with
  | nil => rfl
  | cons kv rest ih =>
    obtain ⟨k', v'⟩ := kv
    simp only [List.map_cons, List.mem_cons, not_or] at h
    have hne : ¬ k' = k := fun e => h.1 e.symm
    simp [mapSet, hne, ih h.2]

theorem keys_mapSet {κ α : Type} [DecidableEq κ] (m : List (κ × α)) (k : κ) (v : α) :
    (mapSet m k v).map Prod.fst =
      if k ∈ m.map Prod.fst then m.map Prod.fst else m.map Prod.fst ++ [k] := by
  induction m with
  | nil => simp [mapSet]
  | cons kv rest ih =>
    obtain ⟨k', v'⟩ := kv
    by_cases h : k' = k
    · subst h; simp [mapSet]
    · have h' : ¬ k = k' := fun e => h e.symm
      by_cases hm : k ∈ rest.map Prod.fst
      · simp only [mapSet, h, if_false, List.map_cons, ih, hm, if_true, List.mem_cons, or_true]
      · simp only [mapSet, h, if_false, List.map_cons, ih, hm, List.mem_cons, h', or_self,
          List.cons_append]

theorem KeysNodup_mapSet {κ α : Type} [DecidableEq κ] (m : List (κ × α)) (k : κ) (v : α)
    (h : KeysNodup m) : KeysNodup (mapSet m k v) := by
  unfold KeysNodup at h ⊢
  rw [keys_mapSet]
  by_cases hm : k ∈ m.map Prod.fst
  · simp only [hm, if_true]; exact h
  · simp only [hm, if_false]
    rw [List.nodup_append]
    refine ⟨h, List.nodup_singleton k, ?_⟩
    intro x hx hx'
    simp only [List.mem_singleton] at hx'
    subst hx'
    exact hm hx

theorem mem_mapSet {κ α : Type} [DecidableEq κ] (m : List (κ × α)) (k : κ) (v : α)
    (x : κ × α) (hx : x ∈ mapSet m k v) : x ∈ m ∨ x = (k, v) := by
  induction m with
  | nil =>
    simp only [mapSet, List.mem_singleton] at hx
    exact Or.inr hx
  | cons kv rest ih =>
    obtain ⟨k', v'⟩ := kv
    by_cases h : k' = k
    · simp only [mapSet, h, if_true, List.mem_cons] at hx
      rcases hx with hx | hx
      · exact Or.inr hx
      · exact Or.inl (List.mem_cons_of_mem _ hx)
    · simp only [mapSet, h, if_false, List.mem_cons] at hx
      rcases hx with hx | hx
      · exact Or.inl (by rw [hx]; exact List.mem_cons_self _ _)
      · rcases ih hx with h' | h'
        · exact Or.inl (List.mem_cons_of_mem _ h')
        · exact Or.inr h'

theorem stringFields_foldl_inv (m : GoMap JSON) (acc : Entry) (h : KeysNodup acc)
    (ht : TextValues acc) :
    KeysNodup (m.foldl (fun entry kv => match kv.2 with
      | JSON.str s => mapSet entry kv.1 (raw s)
      | _ => entry) acc) ∧
    TextValues (m.foldl (fun entry kv => match kv.2 with
      | JSON.str s => mapSet entry kv.1 (raw s)
      | _ => entry) acc) := by
  induction m generalizing acc with
  | nil => exact ⟨h, ht⟩
  | cons kv rest ih =>
    obtain ⟨k, v⟩ := kv
    simp only [List.foldl_cons]
    cases v with
    | str s =>
      apply ih
      · exact KeysNodup_mapSet _ _ _ h
      · intro x hx
        rcases mem_mapSet _ _ _ x hx with hx | hx
        · exact ht x hx
        · exact ⟨s, by rw [hx]⟩
    | _ => exact ih acc h ht

theorem KeysNodup_stringFields (m : GoMap JSON) : KeysNodup (stringFields m) :=
  (stringFields_foldl_inv m [] (by simp [KeysNodup]) (by intro x hx; cases hx)).1

theorem TextValues_stringFields (m : GoMap JSON) : TextValues (stringFields m) :=
  (stringFields_foldl_inv m [] (by simp [KeysNodup]) (by intro x hx; cases hx)).2

theorem stringFields_foldl_text (fields : List (String × String)) (acc : Entry)
    (h : KeysNodup (acc ++ fields.map (fun kv => (kv.1, raw kv.2)))) :
    (fields.map (fun kv => (kv.1, JSON.str kv.2))).foldl (fun entry kv => match kv.2 with
      | JSON.str s => mapSet entry kv.1 (raw s)
      | _ => entry) acc = acc ++ fields.map (fun kv => (kv.1, raw kv.2)) := by
  induction fields generalizing acc with
  | nil => simp
  | cons kv rest ih =>
    obtain ⟨k, v⟩ := kv
    simp only [List.map_cons, List.foldl_cons]
    have hk : k ∉ acc.map Prod.fst := by
      unfold KeysNodup at h
      rw [List.map_append, List.nodup_append] at h
      intro hk
      exact h.2.2 hk (by simp)
    rw [mapSet_of_not_mem acc k (raw v) hk, ih]
    · simp
    · simpa using h

/-- Loading an object of strings gives the entry of their bytes. -/
theorem entryOfValue_text (fields : List (String × String)) (h : KeysNodup fields) :
    entryOfValue (JSON.obj (fields.map (fun kv => (kv.1, JSON.str kv.2)))) =
      some (fields.map (fun kv => (kv.1, raw kv.2))) := by
  unfold entryOfValue stringFields
  simp only [Option.some.injEq]
  have := stringFields_foldl_text fields [] (by
    unfold KeysNodup at h ⊢
    simpa [List.map_map, Function.comp_def] using h)
  simpa using this

/-- Loading the encoding of an entry gives the entry as it is read back. -/
theorem entryOfValue_entryJSON (e : Entry) (h : KeysNodup e) :
    entryOfValue (entryJSON e) = some (entryReadBack e) := by
  have h' : KeysNodup (e.map (fun kv => (kv.1, encodedString kv.2))) := by
    unfold KeysNodup at h ⊢
    simpa [List.map_map, Function.comp_def] using h
  have := entryOfValue_text (e.map (fun kv => (kv.1, encodedString kv.2))) h'
  simp only [List.map_map, Function.comp_def] at this
  unfold entryJSON jsonStr entryReadBack readBack
  exact this

theorem entryReadBack_of_text (e : Entry) (h : TextValues e) : entryReadBack e = e := by
  unfold entryReadBack
  induction e with
  | nil => rfl
  | cons kv rest ih =>
    obtain ⟨s, hs⟩ := h kv (List.mem_cons_self _ _)
    rw [List.map_cons, ih (fun x hx => h x (List.mem_cons_of_mem _ hx))]
    obtain ⟨k, v⟩ := kv
    simp only at hs
    rw [hs, readBack_raw]

theorem loadFold_eq (arr : List JSON) (init : List Entry) :
    arr.foldl (fun stagingArea v => match v with
      | JSON.obj m => stagingArea ++ [stringFields m]
      | _ => stagingArea) init = init ++ arr.filterMap entryOfValue := by
  induction arr generalizing init with
  | nil => simp
  | cons v rest ih =>
    simp only [List.foldl_cons]
    rw [ih]
    cases v <;> simp [entryOfValue]

theorem loadStagingArea_arr (m : GoMap JSON) (arr : List JSON)
    (h : mapGet m "staging_area" = some (JSON.arr arr)) :
    loadStagingArea m = arr.filterMap entryOfValue := by
  unfold loadStagingArea
  rw [h]
  simp only
  rw [loadFold_eq]; simp

/-- Every entry the loader builds has pairwise different keys and values that are text. -/
theorem loadStagingArea_inv (m : GoMap JSON) :
    ∀ e ∈ loadStagingArea m, KeysNodup e ∧ TextValues e := by
  intro e he
  unfold loadStagingArea at he
  cases hm : mapGet m "staging_area" with
  | none => simp [hm] at he
  | some v =>
    cases v with
    | arr a =>
      simp only [hm, loadFold_eq, List.nil_append, List.mem_filterMap] at he
      obtain ⟨v, _, hv⟩ := he
      cases v with
      | obj kvs =>
        simp only [entryOfValue, Option.some.injEq] at hv
        subst hv
        exact ⟨KeysNodup_stringFields kvs, TextValues_stringFields kvs⟩
      | _ => simp [entryOfValue] at hv
    | _ => simp [hm] at he

/-- Loading the encoding of a list of entries gives the entries as they are read back. -/
theorem filterMap_entryJSON (sa : List Entry) (h : ∀ e ∈ sa, KeysNodup e) :
    (sa.map entryJSON).filterMap entryOfValue = sa.map entryReadBack := by
  induction sa with
  | nil => rfl
  | cons e rest ih =>
    simp only [List.map_cons, List.filterMap_cons,
      entryOfValue_entryJSON e (h e (List.mem_cons_self _ _))]
    rw [ih (fun x hx => h x (List.mem_cons_of_mem _ hx))]

/-- Encoding what was loaded from a well-formed array gives the array back. -/
theorem map_entryJSON_filterMap (xs : List JSON) (h : ∀ v ∈ xs, WellFormedEntry v) :
    (xs.filterMap entryOfValue).map entryJSON = xs := by
  induction xs with
  | nil => rfl
  | cons v rest ih =>
    obtain ⟨fields, hf, hv⟩ := h v (List.mem_cons_self _ _)
    subst hv
    simp only [List.filterMap_cons, entryOfValue_text fields hf, List.map_cons]
    rw [ih (fun x hx => h x (List.mem_cons_of_mem _ hx))]
    congr 1
    simp [entryJSON, jsonStr, List.map_map, Function.comp_def, encodedString_raw]

theorem stringAt_entryJSON (e : Entry) (k : String) :
    stringAt (e.map (fun kv => (kv.1, jsonStr kv.2))) k = encodedString (field e k) := by
  induction e with
  | nil => rfl
  | cons kv rest ih =>
    obtain ⟨k', v⟩ := kv
    by_cases h : k' = k
    · simp [stringAt, field, mapGet, h, jsonStr]
    · simp only [stringAt, field, mapGet, List.map_cons, h, if_false] at ih ⊢
      exact ih

/-- The field of an entry whose values are text is text. -/
theorem field_text (e : Entry) (k : String) (h : TextValues e) : readBack (field e k) = field e k := by
  unfold field
  induction e with
  | nil => rfl
  | cons kv rest ih =>
    obtain ⟨k', v⟩ := kv
    by_cases hk : k' = k
    · obtain ⟨s, hs⟩ := h (k', v) (List.mem_cons_self _ _)
      simp only at hs
      simp only [mapGet, hk, if_true, Option.getD_some]
      rw [hs, readBack_raw]
    · simp only [mapGet, hk, if_false]
      exact ih (fun x hx => h x (List.mem_cons_of_mem _ hx))

theorem pathAndHashOfValue_entryJSON (e : Entry) (h : TextValues e) :
    pathAndHashOfValue (entryJSON e) = pathAndHash e := by
  have h1 := field_text e "file_path" h
  have h2 := field_text e "file_hash" h
  unfold readBack at h1 h2
  simp [pathAndHashOfValue, entryJSON, pathAndHash, stringAt_entryJSON, h1, h2]

/-- C4, as the claim states it, fails: the message `bad\xff` is not valid UTF-8, and the record
`Commit` appends carries the message `bad` followed by U+FFFD, another string. -/
theorem commit_message_not_kept :
    (Commit (fun _ => "da39") "2024-01-01 00:00:00" WriteOutcome.ok
      { initialized := true,
        decoded := some [("staging_area", JSON.arr
          [JSON.obj [("file_path", JSON.str "a.txt"), ("file_hash", JSON.str "h1")]])] }
      (raw "bad" ++ [0xFF])).err = none ∧
    (loadCommitHistory (Commit (fun _ => "da39") "2024-01-01 00:00:00" WriteOutcome.ok
      { initialized := true,
        decoded := some [("staging_area", JSON.arr
          [JSON.obj [("file_path", JSON.str "a.txt"), ("file_hash", JSON.str "h1")]])] }
      (raw "bad" ++ [0xFF])).repo.metadata).map messageOf = ["bad\uFFFD"] ∧
    raw "bad\uFFFD" ≠ raw "bad" ++ [0xFF] := by
  refine ⟨by decide, by decide, by decide⟩

/-- C4, amended: in an initialized repository with a non-empty staging area, `Commit` succeeds
when the document is written, and the record it appends carries as `commit_message` the given
message with every byte that is not valid UTF-8 replaced by U+FFFD, so the message itself when
it is text, and the encoding of the staging area it loaded as `files`: the same
`(file_path, file_hash)` pairs in the same order, and the very `staging_area` array of the
prior document when that array is well-formed. -/
theorem commit_record_snapshot (sha1hex : GoString → String) (timestamp : String) (r : Repo)
    (message : GoString) (hi : r.initialized = true) (hs : loadStagingArea r.metadata ≠ []) :
    (Commit sha1hex timestamp WriteOutcome.ok r message).err = none ∧
    ∃ commitMap files,
      (loadCommitHistory (Commit sha1hex timestamp WriteOutcome.ok r message).repo.metadata).getLast?
        = some (JSON.obj commitMap) ∧
      mapGet commitMap "commit_message" = some (JSON.str (encodedString message)) ∧
      (∀ text : String, message = raw text →
        mapGet commitMap "commit_message" = some (JSON.str text)) ∧
      mapGet commitMap "files" = some (JSON.arr files) ∧
      files = (loadStagingArea r.metadata).map entryJSON ∧
      files.map pathAndHashOfValue = (loadStagingArea r.metadata).map pathAndHash ∧
      (∀ xs, mapGet r.metadata "staging_area" = some (JSON.arr xs) →
        (∀ v ∈ xs, WellFormedEntry v) → files = xs) := by
  have hok : (Commit sha1hex timestamp WriteOutcome.ok r message).err = none :=
    (Commit_ok_iff sha1hex timestamp WriteOutcome.ok r message).2 ⟨hi, hs, rfl⟩
  refine ⟨hok,
    [("commit_id", jsonStr (raw (sha1hex (commitContent timestamp message
        (parentCommitID r.metadata) (loadStagingArea r.metadata))))),
     ("commit_message", jsonStr message),
     ("commit_timestamp", jsonStr (raw timestamp)),
     ("files", JSON.arr ((loadStagingArea r.metadata).map entryJSON)),
     ("parent_commit_id", jsonStr (parentCommitID r.metadata))],
    (loadStagingArea r.metadata).map entryJSON, ?_, ?_, ?_, ?_, rfl, ?_, ?_⟩
  · rw [Commit_ok_history sha1hex timestamp WriteOutcome.ok r message hok]
    simp [commitObject]
  · simp [mapGet, jsonStr]
  · intro text ht
    simp [mapGet, jsonStr, ht, encodedString_raw]
  · simp [mapGet]
  · rw [List.map_map]
    apply List.map_congr_left
    intro e he
    exact pathAndHashOfValue_entryJSON e (loadStagingArea_inv r.metadata e he).2
  · intro xs hx hwf
    rw [loadStagingArea_arr _ _ hx]
    exact map_entryJSON_filterMap xs hwf

/-- C4, amended, at a document with two staged files. -/
theorem commit_record_snapshot_witness :
    loadStagingArea [("staging_area", JSON.arr
        [JSON.obj [("file_path", JSON.str "a.txt"), ("file_hash", JSON.str "h1")],
         JSON.obj [("file_path", JSON.str "b.txt"), ("file_hash", JSON.str "h2")]])] ≠ [] ∧
    (Commit (fun _ => "da39") "2024-01-01 00:00:00" WriteOutcome.ok
      { initialized := true,
        decoded := some [("staging_area", JSON.arr
          [JSON.obj [("file_path", JSON.str "a.txt"), ("file_hash", JSON.str "h1")],
           JSON.obj [("file_path", JSON.str "b.txt"), ("file_hash", JSON.str "h2")]])] }
      (raw "First commit")).err = none :=
  ⟨by decide,
   (commit_record_snapshot (fun _ => "da39") "2024-01-01 00:00:00"
      { initialized := true,
        decoded := some [("staging_area", JSON.arr
          [JSON.obj [("file_path", JSON.str "a.txt"), ("file_hash", JSON.str "h1")],
           JSON.obj [("file_path", JSON.str "b.txt"), ("file_hash", JSON.str "h2")]])] }
      (raw "First commit") rfl (by decide)).1⟩

/-! ## C5: a successful commit empties the staging area -/

/-- The staging area `Commit` leaves: the one it found, or none. -/
theorem Commit_staging_cases (sha1hex : GoString → String) (timestamp : String)
    (write : WriteOutcome) (r : Repo) (message : GoString) :
    loadStagingArea (Commit sha1hex timestamp write r message).repo.metadata =
      loadStagingArea r.metadata ∨
    loadStagingArea (Commit sha1hex timestamp write r message).repo.metadata = [] := by
  rcases Commit_repo_cases sha1hex timestamp write r message with h | h | h
  · left; rw [h]
  · right; rw [h, loadStagingArea_commitDoc]
  · right; rw [h]; rfl

/-- C5: in an initialized repository with a non-empty staging area, `Commit` succeeds when the
document can be written, and the `staging_area` of the document it leaves is the empty
array. -/
theorem commit_clears_staging (sha1hex : GoString → String) (timestamp : String) (r : Repo)
    (message : GoString) (hi : r.initialized = true) (hs : loadStagingArea r.metadata ≠ []) :
    (Commit sha1hex timestamp WriteOutcome.ok r message).err = none ∧
    mapGet (Commit sha1hex timestamp WriteOutcome.ok r message).repo.metadata "staging_area"
      = some (JSON.arr []) ∧
    loadStagingArea (Commit sha1hex timestamp WriteOutcome.ok r message).repo.metadata = [] := by
  have hok : (Commit sha1hex timestamp WriteOutcome.ok r message).err = none :=
    (Commit_ok_iff sha1hex timestamp WriteOutcome.ok r message).2 ⟨hi, hs, rfl⟩
  have hm := (Commit_ok_metadata sha1hex timestamp WriteOutcome.ok r message hok).2.2.2
  have hg : mapGet (Commit sha1hex timestamp WriteOutcome.ok r message).repo.metadata
      "staging_area" = some (JSON.arr []) := by
    rw [hm]; exact mapGet_mapSet_self _ _ _
  exact ⟨hok, hg, loadStagingArea_of_empty _ hg⟩

/-- C5 at a document with one staged file and one earlier commit. -/
theorem commit_clears_staging_witness :
    loadStagingArea [("commit_history", JSON.arr [JSON.obj [("commit_id", JSON.str "c1")]]),
        ("staging_area", JSON.arr
          [JSON.obj [("file_path", JSON.str "a.txt"), ("file_hash", JSON.str "h1")]])] ≠ [] ∧
    loadStagingArea (Commit (fun _ => "da39") "2024-01-01 00:00:00" WriteOutcome.ok
      { initialized := true,
        decoded := some [("commit_history", JSON.arr [JSON.obj [("commit_id", JSON.str "c1")]]),
          ("staging_area", JSON.arr
            [JSON.obj [("file_path", JSON.str "a.txt"), ("file_hash", JSON.str "h1")]])] }
      (raw "Second commit")).repo.metadata = [] :=
  ⟨by decide,
   (commit_clears_staging (fun _ => "da39") "2024-01-01 00:00:00"
      { initialized := true,
        decoded := some [("commit_history", JSON.arr [JSON.obj [("commit_id", JSON.str "c1")]]),
          ("staging_area", JSON.arr
            [JSON.obj [("file_path", JSON.str "a.txt"), ("file_hash", JSON.str "h1")]])] }
      (raw "Second commit") rfl (by decide)).2.2⟩

/-! ## Lemmas on the staging loop -/

theorem set_same {α : Type} (l : List α) (i : Nat) (a : α) (h : l[i]? = some a) :
    l.set i a = l := by
  apply List.ext_getElem?
  intro n
  rw [List.getElem?_set]
  by_cases hn : i = n
  · subst hn
    have hlt : i < l.length := (List.getElem?_eq_some.1 h).1
    simp [hlt, h]
  · simp [hn]

theorem stagedIndex_append (sa : List Entry) (e : Entry) :
    stagedIndex (sa ++ [e]) = mapSet (stagedIndex sa) (field e "file_path") sa.length := by
  unfold stagedIndex
  rw [List.enum_append, List.foldl_append, List.enumFrom_singleton]
  rfl

theorem filePaths_append (sa : List Entry) (e : Entry) :
    filePaths (sa ++ [e]) = filePaths sa ++ [field e "file_path"] := by
  simp [filePaths]

/-- A path has no index exactly when no entry of the staging area carries it. -/
theorem stagedIndex_none (sa : List Entry) (p : GoString) :
    mapGet (stagedIndex sa) p = none ↔ p ∉ filePaths sa := by
  refine List.reverseRecOn sa ?_ ?_
  · simp [stagedIndex, mapGet, filePaths]
  · intro l e ih
    rw [stagedIndex_append, filePaths_append]
    by_cases hk : field e "file_path" = p
    · subst hk
      rw [mapGet_mapSet_self]
      simp
    · rw [mapGet_mapSet_ne _ _ _ _ hk, ih]
      have hk' : ¬ p = field e "file_path" := fun h => hk h.symm
      simp [hk']

/-- The index of a path points at an entry that carries the path. -/
theorem stagedIndex_some (sa : List Entry) (p : GoString) (i : Nat)
    (h : mapGet (stagedIndex sa) p = some i) :
    ∃ e, sa[i]? = some e ∧ field e "file_path" = p := by
  revert h
  refine List.reverseRecOn sa ?_ ?_
  · simp [stagedIndex, mapGet]
  · intro l e ih h
    rw [stagedIndex_append] at h
    by_cases hk : field e "file_path" = p
    · subst hk
      rw [mapGet_mapSet_self] at h
      simp only [Option.some.injEq] at h
      subst h
      exact ⟨e, by simp, rfl⟩
    · rw [mapGet_mapSet_ne _ _ _ _ hk] at h
      obtain ⟨e', he', hp⟩ := ih h
      have hlt : i < l.length := (List.getElem?_eq_some.1 he').1
      exact ⟨e', by rw [List.getElem?_append_left hlt]; exact he', hp⟩

/-- With one entry per path, the index of the path of the entry at `i` is `i`. -/
theorem stagedIndex_of_unique (sa : List Entry) (i : Nat) (e : Entry)
    (hu : UniquePaths sa) (he : sa[i]? = some e) :
    mapGet (stagedIndex sa) (field e "file_path") = some i := by
  have hmem : field e "file_path" ∈ filePaths sa := by
    unfold filePaths
    exact List.mem_map.2 ⟨e, List.mem_iff_getElem?.2 ⟨i, he⟩, rfl⟩
  cases hj : mapGet (stagedIndex sa) (field e "file_path") with
  | none => exact absurd hmem ((stagedIndex_none sa _).1 hj)
  | some j =>
    obtain ⟨e', he', hp⟩ := stagedIndex_some sa _ j hj
    have hi' : (filePaths sa)[i]? = some (field e "file_path") := by
      simp [filePaths, he]
    have hj' : (filePaths sa)[j]? = some (field e "file_path") := by
      simp [filePaths, he', hp]
    obtain ⟨hil, hie⟩ := List.getElem?_eq_some.1 hi'
    obtain ⟨hjl, hje⟩ := List.getElem?_eq_some.1 hj'
    have : j = i := (List.Nodup.getElem_inj_iff hu).1 (hje.trans hie.symm)
    rw [this]

/-- One iteration of the staging loop keeps the paths of the staging area, or adds the path it
handles at the end, and then the path was not staged before. -/
theorem addStep_paths (sha1hex : GoString → String) (env : Env) (sa0 : List Entry)
    (st : AddState) (f : GoString)
    (hpre : ∃ extra, filePaths st.stagingArea = filePaths sa0 ++ extra) :
    filePaths (addStep sha1hex env (stagedIndex sa0) st f).stagingArea
        = filePaths st.stagingArea ∨
    (filePaths (addStep sha1hex env (stagedIndex sa0) st f).stagingArea
        = filePaths st.stagingArea ++ [f] ∧ f ∉ filePaths sa0) := by
  unfold addStep
  by_cases hskip : inMyGitDir f = true
  · simp [hskip]
  · simp only [hskip, Bool.false_eq_true, if_false]
    cases hread : env.readFile f with
    | openFail msg => simp
    | hashFail msg => simp
    | ok content =>
      cases hidx : mapGet (stagedIndex sa0) f with
      | none =>
        right
        refine ⟨?_, (stagedIndex_none sa0 f).1 hidx⟩
        simp [filePaths, field, mapGet]
      | some i =>
        left
        obtain ⟨e, he, hp⟩ := stagedIndex_some sa0 f i hidx
        obtain ⟨extra, hextra⟩ := hpre
        have hlt : i < (filePaths sa0).length := by
          have := (List.getElem?_eq_some.1 he).1
          simpa [filePaths] using this
        have hget : (filePaths st.stagingArea)[i]? = some f := by
          rw [hextra, List.getElem?_append_left hlt]
          simp [filePaths, he, hp]
        simp only [filePaths, List.map_set]
        have := set_same (filePaths st.stagingArea) i f hget
        simpa [filePaths, field, mapGet] using this

theorem addLoop_paths (sha1hex : GoString → String) (env : Env) (sa0 : List Entry)
    (fs : List GoString) (st : AddState)
    (hpre : ∃ extra, filePaths st.stagingArea = filePaths sa0 ++ extra) :
    ∃ added, filePaths (fs.foldl (addStep sha1hex env (stagedIndex sa0)) st).stagingArea
        = filePaths st.stagingArea ++ added ∧
      added.Sublist fs ∧ ∀ x ∈ added, x ∉ filePaths sa0 := by
  induction fs generalizing st with
  | nil => exact ⟨[], by simp, List.Sublist.refl _, by simp⟩
  | cons f rest ih =>
    simp only [List.foldl_cons]
    obtain ⟨extra, hextra⟩ := hpre
    rcases addStep_paths sha1hex env sa0 st f ⟨extra, hextra⟩ with h | ⟨h, hnew⟩
    · obtain ⟨added, h1, h2, h3⟩ := ih (addStep sha1hex env (stagedIndex sa0) st f)
        ⟨extra, by rw [h, hextra]⟩
      exact ⟨added, by rw [h1, h], List.Sublist.cons f h2, h3⟩
    · obtain ⟨added, h1, h2, h3⟩ := ih (addStep sha1hex env (stagedIndex sa0) st f)
        ⟨extra ++ [f], by rw [h, hextra, List.append_assoc]⟩
      refine ⟨f :: added, by rw [h1, h]; simp, List.Sublist.cons₂ f h2, ?_⟩
      intro x hx
      rcases List.mem_cons.1 hx with hx | hx
      · rw [hx]; exact hnew
      · exact h3 x hx

theorem addStep_KeysNodup (sha1hex : GoString → String) (env : Env)
    (idx : List (GoString × Nat)) (st : AddState) (f : GoString)
    (h : ∀ e ∈ st.stagingArea, KeysNodup e) :
    ∀ e ∈ (addStep sha1hex env idx st f).stagingArea, KeysNodup e := by
  have hentry : ∀ hash : GoString,
      KeysNodup ([("file_path", f), ("file_hash", hash)] : Entry) := by
    intro hash
    simp [KeysNodup]
  unfold addStep
  by_cases hskip : inMyGitDir f = true
  · simpa [hskip] using h
  · simp only [hskip, Bool.false_eq_true, if_false]
    cases hread : env.readFile f with
    | openFail msg => simpa using h
    | hashFail msg => simpa using h
    | ok content =>
      cases hidx : mapGet idx f with
      | none =>
        intro e he
        simp only [List.mem_append, List.mem_singleton] at he
        rcases he with he | he
        · exact h e he
        · rw [he]; exact hentry _
      | some i =>
        intro e he
        rcases List.mem_or_eq_of_mem_set he with he | he
        · exact h e he
        · rw [he]; exact hentry _

theorem addLoop_KeysNodup (sha1hex : GoString → String) (env : Env) (sa : List Entry)
    (fs : List GoString) (h : ∀ e ∈ sa, KeysNodup e) :
    ∀ e ∈ (addLoop sha1hex env sa fs).stagingArea, KeysNodup e := by
  unfold addLoop
  generalize hst : ({ stagingArea := sa, stdout := [], stderr := [] } : AddState) = st
  have hst' : ∀ e ∈ st.stagingArea, KeysNodup e := by rw [← hst]; exact h
  clear hst
  induction fs generalizing st with
  | nil => exact hst'
  | cons f rest ih =>
    simp only [List.foldl_cons]
    exact ih _ (addStep_KeysNodup sha1hex env _ st f hst')

/-- Reading back the staging area `Add` wrote gives the entries of the list the staging loop
ended with, each as it is read back. -/
theorem loadStagingArea_mapSet_entries (m : GoMap JSON) (sa : List Entry)
    (h : ∀ e ∈ sa, KeysNodup e) :
    loadStagingArea (mapSet m "staging_area" (JSON.arr (sa.map entryJSON)))
      = sa.map entryReadBack := by
  rw [loadStagingArea_arr _ _ (mapGet_mapSet_self _ _ _)]
  exact filterMap_entryJSON sa h

/-- The staging area of the document `Add` leaves is the one it loaded, the one its loop
ended with as it is read back, or none after a write that failed on the truncated file. -/
theorem Add_staging_cases (sha1hex : GoString → String) (env : Env) (r : Repo)
    (args : List GoString) :
    loadStagingArea (Add sha1hex env r args).repo.metadata = loadStagingArea r.metadata ∨
    loadStagingArea (Add sha1hex env r args).repo.metadata =
      (addLoop sha1hex env (loadStagingArea r.metadata)
        (uniqueFiles env args)).stagingArea.map entryReadBack ∨
    loadStagingArea (Add sha1hex env r args).repo.metadata = [] := by
  rcases Add_repo_cases sha1hex env r args with h | h | ⟨h, _⟩
  · left; rw [h]
  · right; left
    rw [h]
    exact loadStagingArea_mapSet_entries _ _
      (addLoop_KeysNodup sha1hex env _ _ (fun e he => (loadStagingArea_inv r.metadata e he).1))
  · right; right; rw [h]; rfl

/-- What `Add` does when it has files to stage, the document is a map and the document is
written in full. -/
theorem Add_ok (sha1hex : GoString → String) (env : Env) (r : Repo) (args : List GoString)
    (m : GoMap JSON)
    (hi : r.initialized = true) (hd : r.decoded = some m) (hfiles : filesToAdd env args ≠ [])
    (hc : env.write = WriteOutcome.ok) :
    (Add sha1hex env r args).err = none ∧
    (Add sha1hex env r args).panicked = false ∧
    loadStagingArea (Add sha1hex env r args).repo.metadata =
      (addLoop sha1hex env (loadStagingArea r.metadata)
        (uniqueFiles env args)).stagingArea.map entryReadBack ∧
    (Add sha1hex env r args).repo.initialized = true ∧
    (Add sha1hex env r args).stdout =
      (addLoop sha1hex env (loadStagingArea r.metadata) (uniqueFiles env args)).stdout ∧
    (Add sha1hex env r args).stderr =
      (addLoop sha1hex env (loadStagingArea r.metadata) (uniqueFiles env args)).stderr := by
  have hl : ¬ (filesToAdd env args).length = 0 := by
    intro h; exact hfiles (List.length_eq_zero.1 h)
  have hrepo : (Add sha1hex env r args).repo =
      ⟨r.initialized, some (mapSet m "staging_area"
          (JSON.arr ((addLoop sha1hex env (loadStagingArea r.metadata)
            (uniqueFiles env args)).stagingArea.map entryJSON)))⟩ := by
    unfold Add; simp [hi, hl, hc, hd, writeBack]
  refine ⟨?_, ?_, ?_, ?_, ?_, ?_⟩
  · unfold Add; simp [hi, hl, hc, hd, writeBack]
  · unfold Add; simp [hi, hl, hc, hd, writeBack]
  · rw [hrepo]
    exact loadStagingArea_mapSet_entries _ _
      (addLoop_KeysNodup sha1hex env _ _ (fun e he => (loadStagingArea_inv r.metadata e he).1))
  · rw [hrepo]; exact hi
  · unfold Add; simp [hi, hl, hc, hd, writeBack]
  · unfold Add; simp [hi, hl, hc, hd, writeBack]

theorem field_entryReadBack (e : Entry) (k : String) :
    field (entryReadBack e) k = readBack (field e k) := by
  unfold field entryReadBack
  induction e with
  | nil => rfl
  | cons kv rest ih =>
    obtain ⟨k', v⟩ := kv
    by_cases h : k' = k
    · simp [mapGet, h]
    · simp only [List.map_cons, mapGet, h, if_false]
      exact ih

theorem filePaths_map_entryReadBack (sa : List Entry) :
    filePaths (sa.map entryReadBack) = (filePaths sa).map readBack := by
  simp [filePaths, List.map_map, Function.comp_def, field_entryReadBack]

/-- The paths of a loaded staging area are text. -/
theorem filePaths_loaded_text (m : GoMap JSON) :
    ∀ p ∈ filePaths (loadStagingArea m), readBack p = p := by
  intro p hp
  unfold filePaths at hp
  obtain ⟨e, he, hpe⟩ := List.mem_map.1 hp
  rw [← hpe]
  exact field_text e "file_path" (loadStagingArea_inv m e he).2

theorem map_readBack_of_text (l : List GoString) (h : ∀ p ∈ l, readBack p = p) :
    l.map readBack = l := by
  induction l with
  | nil => rfl
  | cons p rest ih =>
    rw [List.map_cons, h p (List.mem_cons_self _ _),
      ih (fun x hx => h x (List.mem_cons_of_mem _ hx))]

theorem map_entryReadBack_of_text (l : List Entry) (h : ∀ e ∈ l, TextValues e) :
    l.map entryReadBack = l := by
  induction l with
  | nil => rfl
  | cons e rest ih =>
    rw [List.map_cons, entryReadBack_of_text e (h e (List.mem_cons_self _ _)),
      ih (fun x hx => h x (List.mem_cons_of_mem _ hx))]

/-- `Add` keeps the staging area free of duplicate paths when the paths it stages are text. -/
theorem Add_UniquePaths (sha1hex : GoString → String) (env : Env) (r : Repo)
    (args : List GoString) (hnodup : (uniqueFiles env args).Nodup)
    (htext : ∀ f ∈ uniqueFiles env args, readBack f = f)
    (hu : UniquePaths (loadStagingArea r.metadata)) :
    UniquePaths (loadStagingArea (Add sha1hex env r args).repo.metadata) := by
  rcases Add_staging_cases sha1hex env r args with h | h | h
  · rw [h]; exact hu
  · rw [h]
    unfold addLoop UniquePaths
    obtain ⟨added, h1, h2, h3⟩ := addLoop_paths sha1hex env (loadStagingArea r.metadata)
      (uniqueFiles env args) { stagingArea := loadStagingArea r.metadata, stdout := [], stderr := [] }
      ⟨[], by simp⟩
    rw [filePaths_map_entryReadBack, h1]
    have hall : ∀ p ∈ filePaths (loadStagingArea r.metadata) ++ added, readBack p = p := by
      intro p hp
      rcases List.mem_append.1 hp with hp | hp
      · exact filePaths_loaded_text r.metadata p hp
      · exact htext p (h2.subset hp)
    rw [map_readBack_of_text _ hall, List.nodup_append]
    refine ⟨hu, List.Sublist.nodup h2 hnodup, ?_⟩
    intro x hx hx'
    exact h3 x hx' hx
  · rw [h]; simp [UniquePaths, filePaths]

/-! ## C6: at most one entry per path -/

/-- C6: `Add` and `Commit` keep the staging area at one entry per `file_path` when every path
`Add` stages is valid UTF-8.  With names that are not, the invariant breaks: in a directory
that holds the files `bad\xff.txt` and `bad\xfe.txt`, `Add` of both on the empty document
returns no error and leaves two entries that are both read back with the `file_path`
`bad` U+FFFD `.txt`. -/
theorem add_breaks_unique_paths :
    (∀ (sha1hex : GoString → String) (env : Env) (r : Repo) (args : List GoString)
        (timestamp : String) (write : WriteOutcome) (message : GoString),
      IsRangeOrder (filesToAdd env args) (uniqueFiles env args) →
      (∀ f ∈ uniqueFiles env args, readBack f = f) →
      UniquePaths (loadStagingArea r.metadata) →
      UniquePaths (loadStagingArea (Add sha1hex env r args).repo.metadata) ∧
      UniquePaths (loadStagingArea (Commit sha1hex timestamp write r message).repo.metadata)) ∧
    UniquePaths (loadStagingArea emptyRepo.metadata) ∧
    IsRangeOrder (filesToAdd twoBadNamesEnv [badNameFF, badNameFE])
      (uniqueFiles twoBadNamesEnv [badNameFF, badNameFE]) ∧
    (Add (fun _ => "da39") twoBadNamesEnv emptyRepo [badNameFF, badNameFE]).err = none ∧
    (Add (fun _ => "da39") twoBadNamesEnv emptyRepo [badNameFF, badNameFE]).panicked = false ∧
    filePaths (loadStagingArea
      (Add (fun _ => "da39") twoBadNamesEnv emptyRepo [badNameFF, badNameFE]).repo.metadata)
      = [raw "bad�.txt", raw "bad�.txt"] ∧
    ¬ UniquePaths (loadStagingArea
      (Add (fun _ => "da39") twoBadNamesEnv emptyRepo [badNameFF, badNameFE]).repo.metadata) := by
  refine ⟨?_, by decide, by decide, by decide, by decide, by decide, by decide⟩
  intro sha1hex env r args timestamp write message horder htext hu
  constructor
  · exact Add_UniquePaths sha1hex env r args horder.1 htext hu
  · rcases Commit_staging_cases sha1hex timestamp write r message with h | h
    · rw [h]; exact hu
    · rw [h]; simp [UniquePaths, filePaths]

/-! ## C7: staging a staged path again -/

theorem decoded_of_staging (r : Repo) (h : loadStagingArea r.metadata ≠ []) :
    ∃ m, r.decoded = some m := by
  cases hd : r.decoded with
  | none => simp [Repo.metadata, hd, loadStagingArea, mapGet] at h
  | some m => exact ⟨m, rfl⟩

/-- Staging the single path `p`, which the staging area holds at index `i`, replaces the entry
at `i`. -/
theorem Add_restage (sha1hex : GoString → String) (env : Env) (r : Repo)
    (args : List GoString) (p content : GoString) (i : Nat) (e : Entry)
    (hi : r.initialized = true) (hc : env.write = WriteOutcome.ok)
    (hu : UniquePaths (loadStagingArea r.metadata))
    (he : (loadStagingArea r.metadata)[i]? = some e) (hp : field e "file_path" = p)
    (hfiles : filesToAdd env args ≠ []) (huniq : uniqueFiles env args = [p])
    (hskip : inMyGitDir p = false) (hread : env.readFile p = FileRead.ok content) :
    (Add sha1hex env r args).err = none ∧ (Add sha1hex env r args).panicked = false ∧
    (Add sha1hex env r args).repo.initialized = true ∧
    loadStagingArea (Add sha1hex env r args).repo.metadata =
      (loadStagingArea r.metadata).set i
        [("file_path", p), ("file_hash", raw (sha1hex content))] := by
  have hne : loadStagingArea r.metadata ≠ [] := by
    intro h; rw [h] at he; simp at he
  obtain ⟨m, hd⟩ := decoded_of_staging r hne
  have hok := Add_ok sha1hex env r args m hi hd hfiles hc
  refine ⟨hok.1, hok.2.1, hok.2.2.2.1, ?_⟩
  rw [hok.2.2.1]
  have hidx : mapGet (stagedIndex (loadStagingArea r.metadata)) p = some i := by
    rw [← hp]; exact stagedIndex_of_unique _ i e hu he
  have hmem : e ∈ loadStagingArea r.metadata := List.mem_iff_getElem?.2 ⟨i, he⟩
  have hptext : readBack p = p := by
    rw [← hp]; exact field_text e "file_path" (loadStagingArea_inv r.metadata e hmem).2
  have hloop : (addLoop sha1hex env (loadStagingArea r.metadata) [p]).stagingArea =
      (loadStagingArea r.metadata).set i
        [("file_path", p), ("file_hash", raw (sha1hex content))] := by
    unfold addLoop
    simp only [List.foldl_cons, List.foldl_nil]
    unfold addStep
    simp [hskip, hread, hidx]
  rw [huniq, hloop]
  apply map_entryReadBack_of_text
  intro x hx
  rcases List.mem_or_eq_of_mem_set hx with hx | hx
  · exact (loadStagingArea_inv r.metadata x hx).2
  · rw [hx]
    intro kv hkv
    simp only [List.mem_cons, List.mem_singleton, List.not_mem_nil, or_false] at hkv
    rcases hkv with hkv | hkv
    · rw [hkv]
      exact ⟨encodedString p, by unfold readBack at hptext; exact hptext.symm⟩
    · rw [hkv]; exact ⟨sha1hex content, rfl⟩

/-- C7: in an initialized repository whose staging area has one entry per path and holds an
entry for `p` at index `i`, staging the readable file `p` again succeeds, keeps the length of
the staging area and every other entry, and puts the entry of `p` with the hash of its
current content at index `i`; when that entry was there already (the file is unmodified) the
staging area is left as it was, and staging `p` once more changes nothing. -/
theorem restage_in_place (sha1hex : GoString → String) (env : Env) (r : Repo)
    (args : List GoString) (p content : GoString) (i : Nat) (e : Entry)
    (hi : r.initialized = true) (hc : env.write = WriteOutcome.ok)
    (hu : UniquePaths (loadStagingArea r.metadata))
    (he : (loadStagingArea r.metadata)[i]? = some e) (hp : field e "file_path" = p)
    (hfiles : filesToAdd env args ≠ []) (huniq : uniqueFiles env args = [p])
    (hskip : inMyGitDir p = false) (hread : env.readFile p = FileRead.ok content) :
    (Add sha1hex env r args).err = none ∧
    (loadStagingArea (Add sha1hex env r args).repo.metadata).length =
      (loadStagingArea r.metadata).length ∧
    (∀ j, j ≠ i → (loadStagingArea (Add sha1hex env r args).repo.metadata)[j]? =
      (loadStagingArea r.metadata)[j]?) ∧
    (loadStagingArea (Add sha1hex env r args).repo.metadata)[i]? =
      some [("file_path", p), ("file_hash", raw (sha1hex content))] ∧
    (e = [("file_path", p), ("file_hash", raw (sha1hex content))] →
      loadStagingArea (Add sha1hex env r args).repo.metadata = loadStagingArea r.metadata) ∧
    loadStagingArea (Add sha1hex env (Add sha1hex env r args).repo args).repo.metadata =
      loadStagingArea (Add sha1hex env r args).repo.metadata ∧
    (Add sha1hex env r args).panicked = false := by
  obtain ⟨herr, hpanic, hi', h1⟩ :=
    Add_restage sha1hex env r args p content i e hi hc hu he hp hfiles huniq hskip hread
  have hlt : i < (loadStagingArea r.metadata).length := (List.getElem?_eq_some.1 he).1
  have hat : (loadStagingArea (Add sha1hex env r args).repo.metadata)[i]? =
      some [("file_path", p), ("file_hash", raw (sha1hex content))] := by
    rw [h1]; exact List.getElem?_set_self hlt
  refine ⟨herr, ?_, ?_, hat, ?_, ?_, hpanic⟩
  · rw [h1, List.length_set]
  · intro j hj
    rw [h1]; exact List.getElem?_set_ne (fun h => hj h.symm)
  · intro heq
    rw [h1]; exact set_same _ _ _ (heq ▸ he)
  · have hu' : UniquePaths (loadStagingArea (Add sha1hex env r args).repo.metadata) := by
      rw [h1]
      unfold UniquePaths filePaths
      rw [List.map_set]
      have : (List.map (fun entry => field entry "file_path") (loadStagingArea r.metadata))[i]?
          = some p := by simp [he, hp]
      have hs := set_same _ i p this
      simp only [field, mapGet, if_true, Option.getD_some] at hs ⊢
      rw [hs]; exact hu
    have h2 := (Add_restage sha1hex env (Add sha1hex env r args).repo args p content i
      [("file_path", p), ("file_hash", raw (sha1hex content))] hi' hc hu' hat
      (by simp [field, mapGet]) hfiles huniq hskip hread).2.2.2
    rw [h2]
    exact set_same _ _ _ hat

/-- C7 at a document that holds `a.txt` and `b.txt`, staging `b.txt` after its content
changed. -/
theorem restage_in_place_witness :
    UniquePaths (loadStagingArea [("staging_area", JSON.arr
      [JSON.obj [("file_path", JSON.str "a.txt"), ("file_hash", JSON.str "h1")],
       JSON.obj [("file_path", JSON.str "b.txt"), ("file_hash", JSON.str "h2")]])]) ∧
    loadStagingArea (Add standInDigest
      (plainFilesEnv (raw "new content") WriteOutcome.ok)
      { initialized := true,
        decoded := some [("staging_area", JSON.arr
          [JSON.obj [("file_path", JSON.str "a.txt"), ("file_hash", JSON.str "h1")],
           JSON.obj [("file_path", JSON.str "b.txt"), ("file_hash", JSON.str "h2")]])] }
      [raw "b.txt"]).repo.metadata =
    loadStagingArea (Add standInDigest
      (plainFilesEnv (raw "new content") WriteOutcome.ok)
      (Add standInDigest
        (plainFilesEnv (raw "new content") WriteOutcome.ok)
        { initialized := true,
          decoded := some [("staging_area", JSON.arr
            [JSON.obj [("file_path", JSON.str "a.txt"), ("file_hash", JSON.str "h1")],
             JSON.obj [("file_path", JSON.str "b.txt"), ("file_hash", JSON.str "h2")]])] }
        [raw "b.txt"]).repo [raw "b.txt"]).repo.metadata :=
  ⟨by decide,
   (restage_in_place standInDigest
      (plainFilesEnv (raw "new content") WriteOutcome.ok)
      { initialized := true,
        decoded := some [("staging_area", JSON.arr
          [JSON.obj [("file_path", JSON.str "a.txt"), ("file_hash", JSON.str "h1")],
           JSON.obj [("file_path", JSON.str "b.txt"), ("file_hash", JSON.str "h2")]])] }
      [raw "b.txt"] (raw "b.txt") (raw "new content") 1
      [("file_path", raw "b.txt"), ("file_hash", raw "h2")]
      rfl rfl (by decide) (by decide) (by decide) (by decide) (by decide) (by decide)
      rfl).2.2.2.2.2.1.symm⟩

/-! ## C8: the log shows the history newest first -/

/-- The display loop run from index `n - 1` down to `0` shows the first `n` records in
reversed order. -/
theorem logLoop_eq (h : List JSON) (n : Nat) (hn : n ≤ h.length) :
    logLoop h n = (h.take n).reverse.flatMap showCommit := by
  induction n with
  | zero => simp [logLoop]
  | succ k ih =>
    have hk : k < h.length := by omega
    have hget : h[k]? = some h[k] := List.getElem?_eq_getElem hk
    have ht : h.take (k + 1) = h.take k ++ [h[k]] := by
      rw [List.take_succ, hget]; rfl
    rw [logLoop, ih (by omega), hget, ht, List.reverse_append]
    rfl

/-- C8: `Log` never changes the document; in an initialized repository it returns no error,
prints only the line "No commits yet" when `commit_history` is empty or absent, and otherwise
prints the records of `commit_history` in reversed order, the last appended record first. -/
theorem log_newest_first (r : Repo) (hi : r.initialized = true) :
    (Log r).repo = r ∧ (Log r).err = none ∧ (Log r).stderr = [] ∧
    (loadCommitHistory r.metadata = [] → (Log r).stdout = [raw "No commits yet\n"]) ∧
    (loadCommitHistory r.metadata ≠ [] →
      (Log r).stdout = (loadCommitHistory r.metadata).reverse.flatMap showCommit) ∧
    (mapGet r.metadata "commit_history" = none → loadCommitHistory r.metadata = []) ∧
    (Log r).panicked = false := by
  unfold Log
  cases hh : loadCommitHistory r.metadata with
  | nil =>
    refine ⟨by simp [hi], by simp [hi], by simp [hi], by simp [hi], by simp, by simp,
      by simp [hi]⟩
  | cons c rest =>
    refine ⟨by simp [hi], by simp [hi], by simp [hi], by simp, ?_, ?_, by simp [hi]⟩
    · intro _
      have := logLoop_eq (c :: rest) (c :: rest).length (Nat.le_refl _)
      rw [List.take_length] at this
      simp only [hi, Bool.not_true, Bool.false_eq_true, if_false]
      simpa using this
    · intro hnone
      simp [loadCommitHistory, hnone] at hh

/-- C8 at the history `[C1, C2]`: the log shows `C2`, then `C1`. -/
theorem log_newest_first_witness :
    (Log { initialized := true,
           decoded := some [("commit_history", JSON.arr
             [JSON.obj [("commit_id", JSON.str "c1"), ("commit_message", JSON.str "First commit"),
                        ("commit_timestamp", JSON.str "2024-01-01 00:00:00")],
              JSON.obj [("commit_id", JSON.str "c2"), ("commit_message", JSON.str "Second commit"),
                        ("commit_timestamp", JSON.str "2024-01-02 00:00:00")]])] }).stdout =
      [raw "commit c2\n", raw "Date: 2024-01-02 00:00:00\n", raw "\n",
       raw "    Second commit\n", raw "\n",
       raw "commit c1\n", raw "Date: 2024-01-01 00:00:00\n", raw "\n",
       raw "    First commit\n", raw "\n"] :=
  ((log_newest_first
      { initialized := true,
        decoded := some [("commit_history", JSON.arr
          [JSON.obj [("commit_id", JSON.str "c1"), ("commit_message", JSON.str "First commit"),
                     ("commit_timestamp", JSON.str "2024-01-01 00:00:00")],
           JSON.obj [("commit_id", JSON.str "c2"), ("commit_message", JSON.str "Second commit"),
                     ("commit_timestamp", JSON.str "2024-01-02 00:00:00")]])] }
      rfl).2.2.2.2.1 (by simp [loadCommitHistory, mapGet, Repo.metadata])).trans (by decide)

/-! ## C9: a path that does not exist -/

/-- C9: in a directory that holds `exists.txt` only, `Add` of `exists.txt` and `missing.txt`
returns no error and stages `exists.txt`, and it prints nothing about `missing.txt`: the
standard error stays empty and the standard output has the line of `exists.txt` only.  With
`missing.txt` alone it prints "No files to add." and no warning either. -/
theorem add_missing_path_not_reported :
    (Add standInDigest oneFileEnv emptyRepo [raw "exists.txt", raw "missing.txt"]).err
      = none ∧
    loadStagingArea (Add standInDigest oneFileEnv emptyRepo
      [raw "exists.txt", raw "missing.txt"]).repo.metadata
      = [[("file_path", raw "exists.txt"), ("file_hash", raw "sha1 of hello")]] ∧
    (Add standInDigest oneFileEnv emptyRepo [raw "exists.txt", raw "missing.txt"]).stdout
      = [raw "Added: exists.txt\n"] ∧
    (Add standInDigest oneFileEnv emptyRepo [raw "exists.txt", raw "missing.txt"]).stderr
      = [] ∧
    (Add standInDigest oneFileEnv emptyRepo [raw "missing.txt"]).stdout
      = [raw "No files to add.\n"] ∧
    (Add standInDigest oneFileEnv emptyRepo [raw "missing.txt"]).stderr = [] ∧
    (Add standInDigest oneFileEnv emptyRepo [raw "exists.txt", raw "missing.txt"]).panicked
      = false := by
  refine ⟨by decide, by decide, by decide, by decide, by decide, by decide, by decide⟩

/-! ## C10: the empty commit message -/

theorem exitOf_repo (res : Result) : (exitOf res).repo = res.repo := by
  unfold exitOf
  cases res.panicked
  · cases res.err <;> rfl
  · rfl

theorem mainAdd_history_cases (sha1hex : GoString → String) (env : Env) (r : Repo)
    (args : List GoString) :
    loadCommitHistory (mainAdd sha1hex env r args).repo.metadata = loadCommitHistory r.metadata ∨
    loadCommitHistory (mainAdd sha1hex env r args).repo.metadata = [] := by
  unfold mainAdd
  by_cases h : args.length = 0
  · simp [h]
  · simp only [h, if_false, exitOf_repo]
    rcases Add_history_cases sha1hex env r args with h' | ⟨h', _⟩
    · exact Or.inl h'
    · exact Or.inr h'

/-- In the documents the command line reaches, every record is an object with a non-empty
string as `commit_message`. -/
theorem cliReachable_messages (sha1hex : GoString → String) (r : Repo)
    (hr : CliReachable sha1hex r) :
    ∀ c ∈ loadCommitHistory r.metadata, ∃ commitMap msg,
      c = JSON.obj commitMap ∧ mapGet commitMap "commit_message" = some (JSON.str msg) ∧
      msg ≠ "" := by
  induction hr with
  | empty => simp [emptyRepo, loadCommitHistory, mapGet, Repo.metadata]
  | add env args _ ih =>
    rcases mainAdd_history_cases sha1hex env _ args with h | h
    · rw [h]; exact ih
    · rw [h]; simp
  | @commit timestamp write message r _ ih =>
    unfold mainCommit
    by_cases hm : message = []
    · simpa [hm] using ih
    · simp only [hm, if_false, exitOf_repo]
      rcases Commit_history_cases sha1hex timestamp write r message with h | h | h
      · rw [h]; exact ih
      · rw [h]
        intro c hc
        rcases List.mem_append.1 hc with hc | hc
        · exact ih c hc
        · rw [List.mem_singleton] at hc
          subst hc
          refine ⟨_, encodedString message, rfl, by simp [mapGet, jsonStr], ?_⟩
          cases message with
          | nil => exact absurd rfl hm
          | cons b rest => exact encodedString_ne_empty b rest
      · rw [h]; simp

/-- C10: the `commit` command with an empty message ends with exit code 1 and an error line,
for every document, and leaves the document as it was; hence in every document reached from
the empty document through the `add` and `commit` commands, every record of `commit_history`
carries a non-empty `commit_message`. -/
theorem empty_message_rejected (sha1hex : GoString → String) (timestamp : String)
    (write : WriteOutcome) (r : Repo) :
    (mainCommit sha1hex timestamp write r []).code = 1 ∧
    (mainCommit sha1hex timestamp write r []).repo = r ∧
    (mainCommit sha1hex timestamp write r []).stdout = [] ∧
    (mainCommit sha1hex timestamp write r []).stderr =
      [raw "Error: commit message is required (-m flag)\n"] ∧
    (∀ r', CliReachable sha1hex r' →
      ∀ c ∈ loadCommitHistory r'.metadata, ∃ commitMap msg,
        c = JSON.obj commitMap ∧ mapGet commitMap "commit_message" = some (JSON.str msg) ∧
        msg ≠ "") := by
  refine ⟨by simp [mainCommit], by simp [mainCommit], by simp [mainCommit],
    by simp [mainCommit], ?_⟩
  intro r' hr'
  exact cliReachable_messages sha1hex r' hr'

/-! ## C11: paths inside `.mygit` -/

/-- One iteration of the staging loop leaves every entry as it is or puts the entry of a path
that passed the test of line 148 and was read. -/
theorem addStep_entries (sha1hex : GoString → String) (env : Env)
    (idx : List (GoString × Nat)) (sa0 : List Entry) (st : AddState) (f : GoString)
    (h : ∀ (j : Nat) (e : Entry), st.stagingArea[j]? = some e → sa0[j]? = some e ∨
      ∃ g content, inMyGitDir g = false ∧ env.readFile g = FileRead.ok content ∧
        e = stagedEntry sha1hex g content) :
    ∀ (j : Nat) (e : Entry), (addStep sha1hex env idx st f).stagingArea[j]? = some e →
      sa0[j]? = some e ∨
      ∃ g content, inMyGitDir g = false ∧ env.readFile g = FileRead.ok content ∧
        e = stagedEntry sha1hex g content := by
  unfold addStep
  by_cases hskip : inMyGitDir f = true
  · simpa [hskip] using h
  · have hskip' : inMyGitDir f = false := by simpa using hskip
    simp only [hskip, Bool.false_eq_true, if_false]
    cases hread : env.readFile f with
    | openFail msg => simpa using h
    | hashFail msg => simpa using h
    | ok content =>
      have hnew : ∃ g c, inMyGitDir g = false ∧ env.readFile g = FileRead.ok c ∧
          ([("file_path", f), ("file_hash", raw (sha1hex content))] : Entry)
            = stagedEntry sha1hex g c := ⟨f, content, hskip', hread, rfl⟩
      cases hidx : mapGet idx f with
      | none =>
        intro j e he
        simp only at he
        by_cases hj : j < st.stagingArea.length
        · rw [List.getElem?_append_left hj] at he
          exact h j e he
        · rw [List.getElem?_append_right (by omega)] at he
          have hmem : e ∈ ([[("file_path", f), ("file_hash", raw (sha1hex content))]]
              : List Entry) := List.mem_iff_getElem?.2 ⟨_, he⟩
          rw [List.mem_singleton] at hmem
          right; rw [hmem]; exact hnew
      | some i =>
        intro j e he
        simp only at he
        rw [List.getElem?_set] at he
        by_cases hij : i = j
        · simp only [hij, if_true] at he
          by_cases hlt : j < st.stagingArea.length
          · simp only [hlt, if_true, Option.some.injEq] at he
            right; rw [← he]; exact hnew
          · simp [hlt] at he
        · simp only [hij, if_false] at he
          exact h j e he

theorem addLoop_entries (sha1hex : GoString → String) (env : Env) (sa : List Entry)
    (fs : List GoString) :
    ∀ (j : Nat) (e : Entry), (addLoop sha1hex env sa fs).stagingArea[j]? = some e →
      sa[j]? = some e ∨
      ∃ g content, inMyGitDir g = false ∧ env.readFile g = FileRead.ok content ∧
        e = stagedEntry sha1hex g content := by
  unfold addLoop
  generalize hst : ({ stagingArea := sa, stdout := [], stderr := [] } : AddState) = st
  have hst' : ∀ (j : Nat) (e : Entry), st.stagingArea[j]? = some e → sa[j]? = some e ∨
      ∃ g content, inMyGitDir g = false ∧ env.readFile g = FileRead.ok content ∧
        e = stagedEntry sha1hex g content := by
    rw [← hst]; intro j e he; exact Or.inl he
  clear hst
  induction fs generalizing st with
  | nil => exact hst'
  | cons f rest ih =>
    simp only [List.foldl_cons]
    exact ih _ (addStep_entries sha1hex env _ sa st f hst')

/-- Every entry of the staging area `Add` leaves was at the same index before, or is the
entry, as it is read back, of a path that passed the test of line 148 and was read. -/
theorem Add_entries (sha1hex : GoString → String) (env : Env) (r : Repo)
    (args : List GoString) :
    ∀ (j : Nat) (e : Entry),
      (loadStagingArea (Add sha1hex env r args).repo.metadata)[j]? = some e →
      (loadStagingArea r.metadata)[j]? = some e ∨
      ∃ g content, inMyGitDir g = false ∧ env.readFile g = FileRead.ok content ∧
        e = entryReadBack (stagedEntry sha1hex g content) := by
  rcases Add_staging_cases sha1hex env r args with h | h | h
  · rw [h]; intro j e he; exact Or.inl he
  · rw [h]
    intro j e he
    rw [List.getElem?_map] at he
    cases hst : (addLoop sha1hex env (loadStagingArea r.metadata)
        (uniqueFiles env args)).stagingArea[j]? with
    | none => rw [hst] at he; cases he
    | some e0 =>
      rw [hst] at he
      simp only [Option.map_some', Option.some.injEq] at he
      rcases addLoop_entries sha1hex env _ _ j e0 hst with h0 | ⟨g, content, hg, hr, heq⟩
      · left
        have hmem : e0 ∈ loadStagingArea r.metadata := List.mem_iff_getElem?.2 ⟨j, h0⟩
        rw [← he, entryReadBack_of_text e0 (loadStagingArea_inv r.metadata e0 hmem).2]
        exact h0
      · right
        exact ⟨g, content, hg, hr, by rw [← he, heq]⟩
  · rw [h]; intro j e he; simp at he

theorem field_stagedEntry_path (sha1hex : GoString → String) (g content : GoString) :
    field (entryReadBack (stagedEntry sha1hex g content)) "file_path" = readBack g := by
  simp [stagedEntry, entryReadBack, field, mapGet]

theorem field_stagedEntry_hash (sha1hex : GoString → String) (g content : GoString) :
    field (entryReadBack (stagedEntry sha1hex g content)) "file_hash" = raw (sha1hex content) := by
  simp [stagedEntry, entryReadBack, field, mapGet, readBack_raw]

/-- An ASCII text is a beginning of what is read back exactly when it is one of what was
written. -/
theorem ascii_isPrefixOf (l : List Nat) (hl : ∀ b ∈ l, b < 0x80) (g : GoString) :
    l.isPrefixOf (readBack g) = l.isPrefixOf g := by
  induction l generalizing g with
  | nil => simp [List.isPrefixOf]
  | cons x rest ih =>
    have hx : x < 0x80 := hl x (List.mem_cons_self _ _)
    cases g with
    | nil => rfl
    | cons b t =>
      by_cases hb : b < 0x80
      · have h1 : readBack (b :: t) = b :: readBack t := raw_encodedString_ascii b t hb
        rw [h1, List.isPrefixOf_cons₂, List.isPrefixOf_cons₂,
          ih (fun y hy => hl y (List.mem_cons_of_mem _ hy))]
      · obtain ⟨b', t', h1, hb'⟩ := raw_encodedString_nonascii b t hb
        have h1' : readBack (b :: t) = b' :: t' := h1
        rw [h1', List.isPrefixOf_cons₂, List.isPrefixOf_cons₂]
        have e1 : (x == b') = false := by
          simp only [beq_eq_false_iff_ne, ne_eq]; omega
        have e2 : (x == b) = false := by
          simp only [beq_eq_false_iff_ne, ne_eq]; omega
        rw [e1, e2]; rfl

/-- What is read back is an ASCII text exactly when what was written is that text. -/
theorem ascii_readBack_eq (l : List Nat) (hl : ∀ b ∈ l, b < 0x80) (g : GoString) :
    readBack g = l ↔ g = l := by
  induction l generalizing g with
  | nil =>
    cases g with
    | nil => exact ⟨fun _ => rfl, fun _ => rfl⟩
    | cons b t =>
      constructor
      · intro h
        by_cases hb : b < 0x80
        · rw [show readBack (b :: t) = b :: readBack t from raw_encodedString_ascii b t hb] at h
          cases h
        · obtain ⟨b', t', h1, _⟩ := raw_encodedString_nonascii b t hb
          rw [show readBack (b :: t) = b' :: t' from h1] at h
          cases h
      · intro h; cases h
  | cons x rest ih =>
    have hx : x < 0x80 := hl x (List.mem_cons_self _ _)
    cases g with
    | nil => exact ⟨fun h => (by cases h), fun h => (by cases h)⟩
    | cons b t =>
      by_cases hb : b < 0x80
      · rw [show readBack (b :: t) = b :: readBack t from raw_encodedString_ascii b t hb]
        simp only [List.cons.injEq]
        rw [ih (fun y hy => hl y (List.mem_cons_of_mem _ hy))]
      · obtain ⟨b', t', h1, hb'⟩ := raw_encodedString_nonascii b t hb
        rw [show readBack (b :: t) = b' :: t' from h1]
        simp only [List.cons.injEq]
        constructor
        · intro h; omega
        · intro h; omega

/-- The test of line 148 gives the same answer on a path and on what is read back for it. -/
theorem inMyGitDir_readBack (g : GoString) : inMyGitDir (readBack g) = inMyGitDir g := by
  unfold inMyGitDir
  rw [ascii_isPrefixOf _ (by decide) g]
  congr 1
  rw [Bool.eq_iff_iff]
  simp only [beq_iff_eq]
  exact ascii_readBack_eq _ (by decide) g

/-- C11: `Add` skips a path that is written `.mygit` or starts with `.mygit/`: an entry with
such a `file_path` in the staging area after `Add` was there, at the same index, before.  A
path into the directory that is written another way is staged: in an initialized repository,
`Add` of `./.mygit/metadata.json` returns no error and puts an entry for the repository
document itself into the staging area. -/
theorem add_skips_literal_mygit_paths_only :
    (∀ (sha1hex : GoString → String) (env : Env) (r : Repo) (args : List GoString) (j : Nat)
        (e : Entry),
      (loadStagingArea (Add sha1hex env r args).repo.metadata)[j]? = some e →
      inMyGitDir (field e "file_path") = true →
      (loadStagingArea r.metadata)[j]? = some e) ∧
    inMyGitDir (raw ".mygit/metadata.json") = true ∧
    inMyGitDir (raw "./.mygit/metadata.json") = false ∧
    (Add standInDigest dotSlashEnv emptyRepo [raw "./.mygit/metadata.json"]).err
      = none ∧
    loadStagingArea (Add standInDigest dotSlashEnv emptyRepo
      [raw "./.mygit/metadata.json"]).repo.metadata
      = [[("file_path", raw "./.mygit/metadata.json"), ("file_hash", raw "sha1 of {}")]] ∧
    (Add standInDigest dotSlashEnv emptyRepo [raw "./.mygit/metadata.json"]).stdout
      = [raw "Added: ./.mygit/metadata.json\n"] ∧
    (Add standInDigest dotSlashEnv emptyRepo [raw "./.mygit/metadata.json"]).panicked
      = false := by
  refine ⟨?_, by decide, by decide, by decide, by decide, by decide, by decide⟩
  intro sha1hex env r args j e he hin
  rcases Add_entries sha1hex env r args j e he with h | ⟨g, content, hg, _, heq⟩
  · exact h
  · rw [heq, field_stagedEntry_path, inMyGitDir_readBack, hg] at hin
    exact absurd hin (by decide)

/-! ## C12: the commit id -/

theorem commitContent_foldl (init : GoString) (sa : List Entry) :
    sa.foldl (fun content file => content ++ (field file "file_path" ++ field file "file_hash"))
      init = init ++ List.flatten ((sa.map pathAndHash).flatMap (fun f => [f.1, f.2])) := by
  induction sa generalizing init with
  | nil => simp
  | cons e rest ih =>
    simp only [List.foldl_cons, List.map_cons, List.flatMap_cons, List.cons_append,
      List.nil_append, List.flatten_cons]
    rw [ih]
    simp [pathAndHash, List.append_assoc]

/-- The string `Commit` hashes is the concatenation the specification describes. -/
theorem commitContent_eq (timestamp : String) (message parent : GoString) (sa : List Entry) :
    commitContent timestamp message parent sa =
      List.flatten ([raw timestamp, message, parent] ++
        (sa.map pathAndHash).flatMap (fun f => [f.1, f.2])) := by
  unfold commitContent
  rw [commitContent_foldl]
  simp [List.append_assoc]

theorem commitIdOf_commitObject (sha1hex : GoString → String) (timestamp : String)
    (message : GoString) (m : GoMap JSON) :
    commitIdOf (commitObject sha1hex timestamp message m) =
      hashCommitSpec sha1hex timestamp message (parentCommitID m)
        ((loadStagingArea m).map pathAndHash) := by
  simp [commitObject, commitIdOf, stringAt, mapGet, hashCommitSpec, commitContent_eq, jsonStr,
    encodedString_raw]

/-- C12: the `commit_id` of the record a successful `Commit` appends is the digest of the
concatenation of the timestamp, the message, the parent id and, for each staged entry in
stored order, its `file_path` followed by its `file_hash`; the line `Commit ID:` shows the same
id, and two documents with the same parent id and the same staged paths and hashes get the
same `commit_id` for the same timestamp and message. -/
theorem commit_id_is_hashCommit (sha1hex : GoString → String) (timestamp : String)
    (write : WriteOutcome) (r : Repo) (message : GoString)
    (hok : (Commit sha1hex timestamp write r message).err = none) :
    (∃ c, (loadCommitHistory (Commit sha1hex timestamp write r message).repo.metadata).getLast?
        = some c ∧
      commitIdOf c = hashCommitSpec sha1hex timestamp message (parentCommitID r.metadata)
        ((loadStagingArea r.metadata).map pathAndHash) ∧
      (Commit sha1hex timestamp write r message).stdout[1]? =
        some (raw ("Commit ID: " ++ commitIdOf c ++ "\n"))) ∧
    (∀ m : GoMap JSON, parentCommitID m = parentCommitID r.metadata →
      (loadStagingArea m).map pathAndHash = (loadStagingArea r.metadata).map pathAndHash →
      commitIdOf (commitObject sha1hex timestamp message m) =
        commitIdOf (commitObject sha1hex timestamp message r.metadata)) := by
  obtain ⟨hi, hs, hc, _⟩ := Commit_ok_metadata sha1hex timestamp write r message hok
  refine ⟨⟨commitObject sha1hex timestamp message r.metadata, ?_, ?_, ?_⟩, ?_⟩
  · rw [Commit_ok_history sha1hex timestamp write r message hok]; simp
  · exact commitIdOf_commitObject sha1hex timestamp message r.metadata
  · subst hc
    have hid : commitIdOf (commitObject sha1hex timestamp message r.metadata) =
        sha1hex (commitContent timestamp message (parentCommitID r.metadata)
          (loadStagingArea r.metadata)) := by
      simp [commitObject, commitIdOf, stringAt, mapGet, jsonStr, encodedString_raw]
    rw [hid]
    unfold Commit
    cases hs' : loadStagingArea r.metadata with
    | nil => exact absurd hs' hs
    | cons e rest =>
      simp [hi, writeBack]
  · intro m hp hf
    rw [commitIdOf_commitObject, commitIdOf_commitObject, hp, hf]

/-- C12 at a document with one commit and two staged files. -/
theorem commit_id_is_hashCommit_witness :
    (Commit standInDigest "2024-01-01 00:00:00" WriteOutcome.ok
      { initialized := true,
        decoded := some [("commit_history", JSON.arr [JSON.obj [("commit_id", JSON.str "c1")]]),
          ("staging_area", JSON.arr
            [JSON.obj [("file_path", JSON.str "a.txt"), ("file_hash", JSON.str "h1")],
             JSON.obj [("file_path", JSON.str "b.txt"), ("file_hash", JSON.str "h2")]])] }
      (raw "Second commit")).err = none ∧
    (Commit standInDigest "2024-01-01 00:00:00" WriteOutcome.ok
      { initialized := true,
        decoded := some [("commit_history", JSON.arr [JSON.obj [("commit_id", JSON.str "c1")]]),
          ("staging_area", JSON.arr
            [JSON.obj [("file_path", JSON.str "a.txt"), ("file_hash", JSON.str "h1")],
             JSON.obj [("file_path", JSON.str "b.txt"), ("file_hash", JSON.str "h2")]])] }
      (raw "Second commit")).stdout[1]? =
      some (raw "Commit ID: sha1 of 2024-01-01 00:00:00Second commitc1a.txth1b.txth2\n") :=
  ⟨by decide,
   by
    obtain ⟨c, _, hid, hout⟩ := (commit_id_is_hashCommit
      standInDigest
      "2024-01-01 00:00:00" WriteOutcome.ok
      { initialized := true,
        decoded := some [("commit_history", JSON.arr [JSON.obj [("commit_id", JSON.str "c1")]]),
          ("staging_area", JSON.arr
            [JSON.obj [("file_path", JSON.str "a.txt"), ("file_hash", JSON.str "h1")],
             JSON.obj [("file_path", JSON.str "b.txt"), ("file_hash", JSON.str "h2")]])] }
      (raw "Second commit") (by decide)).1
    rw [hout, hid]
    decide⟩

/-! ## C13: hashes are forty lowercase hexadecimal digits -/

theorem hexDigit_mem : ∀ n, n < 16 → hexDigit n ∈ ldigits := by decide

theorem hexOfByte_mem (b : Nat) (c : Char) (hc : c ∈ hexOfByte b) : c ∈ ldigits := by
  unfold hexOfByte at hc
  simp only [List.mem_cons, List.mem_singleton, List.not_mem_nil, or_false] at hc
  rcases hc with hc | hc
  · rw [hc]; exact hexDigit_mem _ (by omega)
  · rw [hc]; exact hexDigit_mem _ (by omega)

theorem length_flatMap_hexOfByte (bytes : List Nat) :
    (bytes.flatMap hexOfByte).length = 2 * bytes.length := by
  induction bytes with
  | nil => rfl
  | cons b rest ih =>
    rw [List.flatMap_cons, List.length_append, ih]
    simp [hexOfByte]
    omega

/-- The verb `%x` renders twenty bytes as forty lowercase hexadecimal digits. -/
theorem IsHex40_hexOfBytes (bytes : List Nat) (h : bytes.length = sha1Size) :
    IsHex40 (hexOfBytes bytes) := by
  constructor
  · unfold hexOfBytes
    rw [String.length_mk, length_flatMap_hexOfByte, h]
    rfl
  · intro c hc
    have hc' : c ∈ bytes.flatMap hexOfByte := hc
    obtain ⟨b, _, hb⟩ := List.mem_flatMap.1 hc'
    exact hexOfByte_mem b c hb

/-- C13: when the SHA-1 checksum has `sha1.Size` = 20 bytes, the string `%x` makes of it has
exactly 40 characters, each a lowercase hexadecimal digit, for every content; so every entry
`Add` puts into the staging area of any document has such a `file_hash`, and so has the
`commit_id` of the record a successful `Commit` appends. -/
theorem hashes_are_forty_hex_digits (sum : GoString → List Nat)
    (hsize : ∀ content, (sum content).length = sha1Size)
    (env : Env) (r : Repo) (args : List GoString) (timestamp : String)
    (write : WriteOutcome) (message : GoString) :
    (∀ content, IsHex40 (sha1hexOf sum content)) ∧
    (∀ (j : Nat) (e : Entry),
      (loadStagingArea (Add (sha1hexOf sum) env r args).repo.metadata)[j]? = some e →
      (loadStagingArea r.metadata)[j]? = some e ∨
      ∃ h : String, field e "file_hash" = raw h ∧ IsHex40 h) ∧
    ((Commit (sha1hexOf sum) timestamp write r message).err = none →
      ∃ c, (loadCommitHistory
          (Commit (sha1hexOf sum) timestamp write r message).repo.metadata).getLast? = some c ∧
        IsHex40 (commitIdOf c)) := by
  have hall : ∀ content, IsHex40 (sha1hexOf sum content) :=
    fun content => IsHex40_hexOfBytes (sum content) (hsize content)
  refine ⟨hall, ?_, ?_⟩
  · intro j e he
    rcases Add_entries (sha1hexOf sum) env r args j e he with h | ⟨g, content, _, _, heq⟩
    · exact Or.inl h
    · right
      exact ⟨sha1hexOf sum content, by rw [heq, field_stagedEntry_hash], hall content⟩
  · intro hok
    refine ⟨commitObject (sha1hexOf sum) timestamp message r.metadata, ?_, ?_⟩
    · rw [Commit_ok_history (sha1hexOf sum) timestamp write r message hok]; simp
    · rw [commitIdOf_commitObject]
      exact hall _

/-- C13 with a stand-in checksum of twenty bytes: on the empty document, `Add` of a file with
the content of the hashing test stores a `file_hash` of forty hexadecimal digits, and the
commit that follows gets such a `commit_id`. -/
theorem hashes_are_forty_hex_digits_witness :
    (∀ content : GoString, (List.replicate 20 (content.length * 37)).length = sha1Size) ∧
    (∃ e h, (loadStagingArea (Add (sha1hexOf (fun content => List.replicate 20 (content.length * 37)))
        oneFileEnv emptyRepo [raw "exists.txt"]).repo.metadata)[0]? = some e ∧
      field e "file_hash" = raw h ∧ IsHex40 h) ∧
    (∃ c, (loadCommitHistory
        (Commit (sha1hexOf (fun content => List.replicate 20 (content.length * 37)))
          "2024-01-01 00:00:00" WriteOutcome.ok
          (Add (sha1hexOf (fun content => List.replicate 20 (content.length * 37)))
            oneFileEnv emptyRepo [raw "exists.txt"]).repo
          (raw "Initial commit")).repo.metadata).getLast? = some c ∧
      IsHex40 (commitIdOf c)) :=
  ⟨fun _ => List.length_replicate _ _,
   by
    obtain ⟨e, he⟩ : ∃ e, (loadStagingArea
        (Add (sha1hexOf (fun content => List.replicate 20 (content.length * 37)))
          oneFileEnv emptyRepo [raw "exists.txt"]).repo.metadata)[0]? = some e :=
      Option.isSome_iff_exists.1 (by decide)
    rcases (hashes_are_forty_hex_digits
      (fun content => List.replicate 20 (content.length * 37))
      (fun _ => List.length_replicate _ _) oneFileEnv emptyRepo [raw "exists.txt"]
      "2024-01-01 00:00:00" WriteOutcome.ok (raw "Initial commit")).2.1 0 e he with h | ⟨h, h1, h2⟩
    · simp [emptyRepo, Repo.metadata, loadStagingArea, mapGet] at h
    · exact ⟨e, h, he, h1, h2⟩,
   (hashes_are_forty_hex_digits
      (fun content => List.replicate 20 (content.length * 37))
      (fun _ => List.length_replicate _ _) oneFileEnv
      (Add (sha1hexOf (fun content => List.replicate 20 (content.length * 37)))
        oneFileEnv emptyRepo [raw "exists.txt"]).repo [raw "exists.txt"]
      "2024-01-01 00:00:00" WriteOutcome.ok (raw "Initial commit")).2.2 (by decide)⟩


end MyGit
